import Mathlib

/-!
# Verification of the `schemaless` translation engine

A shallow embedding, in Lean 4, of the core of the `schemaless` Go package
(files `translate.go` and `reverse.go`): the JSON data model, shape
fingerprinting (`RemoveJsonValues`), forward template application
(`runJsonTranslation` / `recurseFindKey` / `handleMultiListItems`), reverse
inference (`ReverseTranslate` / `FindMatchingString` / `MapValueToLocation`),
the sub-standard fan-out loop (`handleSubStandard`) and the single-flight
generation coordinator (`GptTranslate`), together with theorems settling the
specification's claims about them.

Modelling conventions:
* Go's dynamically typed JSON trees (`map[string]interface{}` etc.) become the
  inductive type `Json`.  Go maps are unordered with unique keys; they are
  embedded as association lists (`List (String × Json)`), and functions that
  depend on iteration order either sort keys (as the source itself does) or
  are paired with claims that are insensitive to the order.
* Go `float64` JSON numbers are embedded as `Int`; no claim involves
  non-integral numerics, and `fmt.Sprintf("%v", f)` agrees with `toString`
  on integral values in the exercised range.
* Byte-level marshal/unmarshal round trips inside the source
  (`json.Marshal` followed by `json.Unmarshal` of the same tree) are the
  identity on the tree and are elided, except where the source inspects the
  marshalled *text* (sentinel searches), where marshalling is embedded
  explicitly (`jsonCompact`, `jsonIndent`).
* Side effects that cannot influence the claims (logging, file persistence)
  are dropped.
-/

namespace Schemaless

/-- The dynamically typed JSON tree all of `schemaless` operates on
(Go `interface{}` holding `nil`, `bool`, `float64`, `string`,
`[]interface{}` or `map[string]interface{}`). -/
inductive Json where
  | null
  | bool (b : Bool)
  | num (n : Int)
  | str (s : String)
  | arr (items : List Json)
  | obj (fields : List (String × Json))
deriving Inhabited

namespace Json

/-- Go map read `m[k]` (first binding wins; Go maps never hold duplicates). -/
def lookup (k : String) : List (String × Json) → Option Json
  | [] => none
  | (k', v) :: rest => if k' = k then some v else lookup k rest

/-- Go map write `m[k] = v`: replace the binding if present, insert otherwise. -/
def mapSet (fields : List (String × Json)) (k : String) (v : Json) :
    List (String × Json) :=
  if (fields.map Prod.fst).contains k then
    fields.map (fun p => if p.1 = k then (k, v) else p)
  else
    fields ++ [(k, v)]

end Json

/-! ## String helpers

The Go source works on strings; the embedding implements the `strings` /
`encoding/json` primitives it uses over `List Char` so that they are
executable and provable.  All separators involved (`.`, `#`, `$`, `"`,
`[]`) are ASCII, so a character-level model of Go's byte-level functions is
exact on them. -/

/-- `strings.Split(s, ".")` on the character list: split at every `'.'`.
Always returns at least one (possibly empty) part. -/
def splitDotsAux : List Char → List (List Char)
  | [] => [[]]
  | c :: cs =>
      let rest := splitDotsAux cs
      if c = '.' then [] :: rest
      else (c :: rest.headD []) :: rest.tail

/-- `strings.Split(s, ".")`. -/
def splitDots (s : String) : List String :=
  (splitDotsAux s.data).map String.mk

/-- `strings.Join(parts, ".")`. -/
def joinDots (parts : List String) : String :=
  String.intercalate "." parts

/-- Substring search on character lists: does `pat` occur inside `l`?
(`strings.Contains` semantics: the empty pattern occurs everywhere.) -/
def hasSubL (pat : List Char) : List Char → Bool
  | [] => pat.isEmpty
  | c :: cs => pat.isPrefixOf (c :: cs) || hasSubL pat cs

/-- `strings.Contains(s, pat)`. -/
def hasSub (s pat : String) : Bool :=
  hasSubL pat.data s.data

/-- The source's ten-fold `strings.HasSuffix(k, "1") || … || HasSuffix(k, "0")`
test: the key's last character is a decimal digit (digits are one-byte ASCII,
so the byte-suffix tests are exactly a last-character test). -/
def endsDigit (k : String) : Bool :=
  match k.data.getLast? with
  | some c =>
      c == '1' || c == '2' || c == '3' || c == '4' || c == '5' ||
      c == '6' || c == '7' || c == '8' || c == '9' || c == '0'
  | none => false

/-- Split a character list at every occurrence of `sep`
(`strings.Split` with a one-character separator). -/
def splitCharAux (sep : Char) : List Char → List (List Char)
  | [] => [[]]
  | c :: cs =>
      let rest := splitCharAux sep cs
      if c = sep then [] :: rest
      else (c :: rest.headD []) :: rest.tail

/-- `strings.Split(s, sep)` for a one-character separator `sep`. -/
def splitChar (sep : Char) (s : String) : List String :=
  (splitCharAux sep s.data).map String.mk

/-- `strings.HasPrefix(s, pre)`, character by character. -/
def hasPrefixStr (pre s : String) : Bool := pre.data.isPrefixOf s.data

/-- `strings.HasSuffix(s, suf)`, character by character. -/
def hasSuffixStr (suf s : String) : Bool := suf.data.isSuffixOf s.data

/-- `strings.TrimPrefix(s, "#")`. -/
def trimHash (s : String) : String :=
  if hasPrefixStr "#" s then s.drop 1 else s

/-- The integer `fmt.Sscanf(s, "%d", &n)` reads from `s`: an optional minus
sign followed by at least one digit (trailing characters are not an error);
`none` models the scan error. -/
def parseGoInt (s : String) : Option Int :=
  let leadDigits : List Char → Option Nat := fun l =>
    let ds := l.takeWhile Char.isDigit
    if ds.isEmpty then none
    else some (ds.foldl (fun a c => a * 10 + (c.toNat - '0'.toNat)) 0)
  match s.data with
  | '-' :: rest => (leadDigits rest).map (fun n => -(n : Int))
  | l => (leadDigits l).map (fun n => (n : Int))

/-- The inclusive integer range `lo..hi`
(`for i := lo; i <= hi; i++` collecting `i`). -/
def rangeInts (lo hi : Int) : List Int :=
  (List.range (hi + 1 - lo).toNat).map (fun (j : Nat) => lo + (j : Int))

/-! ## `MapValueToLocation` (reverse.go)

The write-back operation: walk `mapToSearch` along the `.`-separated
`location` and store `value` at its end.  When a list is encountered, the
next location segment is interpreted as a list selector to compute the set
of `correctIndexes` to descend into; selector parse failures `continue` the
outer loop, leaving the key untouched (the function has no error return at
all).  The embedding carries the location pre-split into segments: the
source splits the string on `.` in every call and re-joins the tail for the
recursive call, and splitting the joined tail yields the tail itself, since
segments produced by a split never contain the separator. -/

/-- The `correctIndexes` computation of `MapValueToLocation` for a list of
length `len`: `parts` is the (full) location segment list whose head matched
the key holding the list.  `none` models the `continue` statements that skip
the key on a malformed selector. -/
def mvtlCorrectIndexes (parts : List String) (len : Nat) : Option (List Int) :=
  let allIdx : List Int := (List.range len).map Int.ofNat
  match parts with
  | key0 :: sel :: _ =>
      if hasPrefixStr "#" sel then
        if sel = "#" then some allIdx
        else if hasSub sel "-" then
          match splitChar '-' sel with
          | [sPart, ePart] =>
              let sIdx := trimHash sPart
              let eIdx := trimHash ePart
              let startIdx? : Option Int :=
                match parseGoInt sIdx with
                | some n => some n
                | none => if sIdx = "" ∨ sIdx = "min" then some 0 else none
              let endIdx? : Option Int :=
                match parseGoInt eIdx with
                | some n => some n
                | none => if eIdx = "" ∨ eIdx = "max" then some ((len : Int) - 1) else none
              match startIdx?, endIdx? with
              | some s, some e => if s < 0 then none else some (rangeInts s e)
              | _, _ => none
          | _ => none
        else if hasSub key0 "#" then
          let idx := trimHash sel
          let idx? : Option Int :=
            match parseGoInt idx with
            | some n => some n
            | none =>
                if idx = "min" then some 0
                else if idx = "max" then some ((len : Int) - 1)
                else none
          match idx? with
          | some n => if n < 0 then none else some [n]
          | none => none
        else some allIdx
      else some allIdx
  | _ => some allIdx

mutual

/-- `MapValueToLocation(mapToSearch, location, value)` with the location
pre-split into `parts`.  Iterates the map's bindings; at the binding whose
key equals the head segment it either stores the value (last segment),
recurses into an object, or walks a list via `mvtlLoop`; other value types
are skipped with the binding untouched. -/
def mvtl (fields : List (String × Json)) (parts : List String) (value : String) :
    List (String × Json) :=
  match fields with
  | [] => []
  | (k, v) :: rest =>
      let hd :=
        if k ≠ parts.headD "" then (k, v)
        else if parts.length = 1 then (k, Json.str value)
        else
          match v with
          | .obj sub => (k, Json.obj (mvtl sub parts.tail value))
          | .arr items =>
              match mvtlCorrectIndexes parts items.length with
              | none => (k, Json.arr items)
              | some idxs => (k, Json.arr (mvtlLoop items idxs parts value 0))
          | other => (k, other)
      hd :: mvtl rest parts value

/-- How `MapValueToLocation`'s list loop treats one item sitting at a
*selected* index: an object item is recursed into after the selector segment
is dropped — unless the remaining location is a single segment, in which case
the `continue` skips the append and the item is *dropped* from the list
(empty result); non-object items are kept unchanged. -/
def mvtlLoopItem (parts : List String) (value : String) : Json → List Json
  | .obj sub =>
      let sp := parts.tail
      if sp.length < 2 then []
      else
        let sp2 := if hasSub (sp.headD "") "#" then sp.tail else sp
        [Json.obj (mvtl sub sp2 value)]
  | other => [other]

/-- The `for i, v := range val` loop of `MapValueToLocation`'s list case:
items at selected indexes are handled by `mvtlLoopItem`, the rest are kept
unchanged. -/
def mvtlLoop (items : List Json) (idxs : List Int) (parts : List String)
    (value : String) (i : Nat) : List Json :=
  match items with
  | [] => []
  | item :: more =>
      (if (i : Int) ∈ idxs then mvtlLoopItem parts value item else [item]) ++
        mvtlLoop more idxs parts value (i + 1)

end

/-- `strings.TrimSpace` (ASCII whitespace; the inputs trimmed by the source
are path fragments without exotic Unicode spaces). -/
def trimSpace (s : String) : String :=
  let ws : Char → Bool := fun c => c == ' ' || c == '\t' || c == '\n' || c == '\r'
  String.mk (((s.data.dropWhile ws).reverse.dropWhile ws).reverse)

/-- `strings.ReplaceAll(s, pat, rep)` on character lists (left-to-right,
non-overlapping). -/
def replaceAllL (pat rep : List Char) : List Char → List Char
  | [] => []
  | c :: cs =>
      if h : pat ≠ [] ∧ pat.isPrefixOf (c :: cs) then
        rep ++ replaceAllL pat rep ((c :: cs).drop pat.length)
      else c :: replaceAllL pat rep cs
  termination_by l => l.length
  decreasing_by
    · simp only [List.length_drop, List.length_cons]
      have : pat.length ≥ 1 := List.length_pos.mpr h.1
      omega
    · simp

/-- `strings.ReplaceAll`. -/
def replaceAll (s pat rep : String) : String :=
  String.mk (replaceAllL pat.data rep.data s.data)

/-- Everything after the first occurrence of `pat` — the source's
`strings.Join(strings.Split(s, pat)[1:], pat)`, which strips the prefix up
to and including the first occurrence; `none` when `pat` does not occur
(`len(foundList) < 2`). -/
def afterFirstSubL (pat : List Char) : List Char → Option (List Char)
  | [] => none
  | c :: cs =>
      if pat.isPrefixOf (c :: cs) then some ((c :: cs).drop pat.length)
      else afterFirstSubL pat cs

def afterFirstSub (s pat : String) : Option String :=
  (afterFirstSubL pat.data s.data).map String.mk

/-- `strings.SplitN(s, ".", 2)[1]`: everything after the first `'.'`
(callers guarantee a dot is present; the empty string stands for the
out-of-range panic otherwise). -/
def afterFirstDot (s : String) : String :=
  String.mk ((s.data.dropWhile (· ≠ '.')).drop 1)

/-- Remove every `'"'` (`strings.ReplaceAll(s, "\"", "")`). -/
def stripQuotes (s : String) : String :=
  String.mk (s.data.filter (· ≠ '"'))

/-- `strings.Count(s, "\"")`. -/
def countQuotes (s : String) : Nat :=
  s.data.count '"'

/-- Sort order used wherever the source sorts map keys (`sort.Strings` in
the token, the `encoding/json` marshaller): compare `(key, payload)` pairs
by key, code-point lexicographically (equal to Go's byte order, since UTF-8
is order-preserving). -/
def keyLE (a b : String × String) : Prop := a.1.data ≤ b.1.data

instance : DecidableRel keyLE :=
  fun a b => inferInstanceAs (Decidable (a.1.data ≤ b.1.data))

instance : IsTrans (String × String) keyLE := ⟨fun _ _ _ => le_trans⟩

instance : IsTotal (String × String) keyLE := ⟨fun a b => le_total a.1.data b.1.data⟩

/-! ## Marshalling (`encoding/json`)

`json.Marshal` / `json.MarshalIndent(v, "", "\t")` with map keys sorted
(as the Go library does) and standard escaping.  The source only inspects
marshalled text via substring searches for sentinel fragments, so the
embedding implements the byte format directly. -/

/-- Go `encoding/json` string escaping (`escapeHTML` enabled, as in
`json.Marshal`): quote, backslash, the common control characters, and the
HTML-sensitive `<`, `>`, `&`. -/
def escapeJsonChar (c : Char) : List Char :=
  if c = '"' then ['\\', '"']
  else if c = '\\' then ['\\', '\\']
  else if c = '\n' then ['\\', 'n']
  else if c = '\r' then ['\\', 'r']
  else if c = '\t' then ['\\', 't']
  else if c = '<' then ['\\', 'u', '0', '0', '3', 'c']
  else if c = '>' then ['\\', 'u', '0', '0', '3', 'e']
  else if c = '&' then ['\\', 'u', '0', '0', '2', '6']
  else if c.toNat < 32 then
    ['\\', 'u', '0', '0', Nat.digitChar (c.toNat / 16), Nat.digitChar (c.toNat % 16)]
  else [c]

/-- A JSON string literal for `s`. -/
def quoteJson (s : String) : String :=
  "\"" ++ String.mk (s.data.flatMap escapeJsonChar) ++ "\""

/-- `n` tab characters (`MarshalIndent` with indent `"\t"`). -/
def tabs (n : Nat) : String :=
  String.mk (List.replicate n '\t')

mutual

/-- `json.Marshal` (compact form, map keys sorted). -/
def jsonCompact : Json → String
  | .null => "null"
  | .bool b => if b then "true" else "false"
  | .num n => toString n
  | .str s => quoteJson s
  | .arr xs =>
      "[" ++ String.intercalate "," (jsonCompactItems xs) ++ "]"
  | .obj fs =>
      "\x7b" ++
        String.intercalate ","
          ((List.insertionSort keyLE (jsonCompactFields fs)).map Prod.snd) ++ "\x7d"

def jsonCompactItems : List Json → List String
  | [] => []
  | x :: xs => jsonCompact x :: jsonCompactItems xs

/-- Each field rendered compactly, still paired with its key for sorting. -/
def jsonCompactFields : List (String × Json) → List (String × String)
  | [] => []
  | (k, v) :: rest => (k, quoteJson k ++ ":" ++ jsonCompact v) :: jsonCompactFields rest

end

mutual

/-- `json.MarshalIndent(v, "", "\t")` at nesting depth `d` (map keys
sorted). -/
def jsonIndent : Json → Nat → String
  | .null, _ => "null"
  | .bool b, _ => if b then "true" else "false"
  | .num n, _ => toString n
  | .str s, _ => quoteJson s
  | .arr [], _ => "[]"
  | .arr (x :: xs), d =>
      "[\n" ++ String.intercalate ",\n" (jsonIndentItems (x :: xs) (d + 1)) ++
        "\n" ++ tabs d ++ "]"
  | .obj [], _ => "{}"
  | .obj (f :: fs), d =>
      "\x7b\n" ++
        String.intercalate ",\n"
          ((List.insertionSort keyLE (jsonIndentFields (f :: fs) (d + 1))).map Prod.snd) ++
        "\n" ++ tabs d ++ "\x7d"

def jsonIndentItems : List Json → Nat → List String
  | [], _ => []
  | x :: xs, d => (tabs d ++ jsonIndent x d) :: jsonIndentItems xs d

def jsonIndentFields : List (String × Json) → Nat → List (String × String)
  | [], _ => []
  | (k, v) :: rest, d =>
      (k, tabs d ++ quoteJson k ++ ": " ++ jsonIndent v d) :: jsonIndentFields rest d

end

/-! ## `recurseFindKey` (translate.go)

Path resolution for Forward Application.  The function splits the key on
`.`, scans the object for the head segment, and either stringifies the
value found (final segment), recurses into object values (with a
quote-stripping retry), or — when the value is a list and the remaining key
starts with `#` — resolves the remaining key against every list element,
marshalling the successes into a `schemaless_list[...]`-tagged string.
Failures fall through the scan and end in an error (`none`); the caller
uses the empty string as the value in that case.

The embedding passes the key pre-split into segments: the source re-joins
and re-splits the tail at every step, which is the identity on segments
(they never contain the separator), and the quote-stripping rewrite
commutes with the split since `"` ≠ `.`. -/

/-- The error-path retry test: the joined remaining key starts with `"` and
contains more than one `"` (`strings.HasPrefix` / `strings.Count` on the
joined tail). -/
def quoteFixApplies (segs : List String) : Bool :=
  (match (segs.headD "").data with
   | '"' :: _ => true
   | _ => false) &&
  decide ((segs.map countQuotes).sum > 1)

/-- Does the joined remaining key start with `#`
(`string(parsedKey[0]) == "#"` after `len(parsedKey) > 0`)? -/
def startsHash (segs : List String) : Bool :=
  match (segs.headD "").data with
  | '#' :: _ => true
  | _ => false

mutual

/-- `recurseFindKey(input, key, depth)`, with the key pre-split into
segments; `none` is the error return (the accompanying string value is
always empty in the source). -/
def recurseFindKey : List (String × Json) → List String → Nat → Option String
  | [], _, _ => none
  | (k, v) :: rest, keys, depth =>
      if k ≠ keys.headD "" then recurseFindKey rest keys depth
      else if keys.length ≤ 1 then
        match v with
        | .null => some ""
        | .str s => some s
        | .obj fs => some (jsonIndent (.obj fs) 0)
        | .arr xs => some (jsonIndent (.arr xs) 0)
        | .bool b => some (if b then "true" else "false")
        | .num n => some (toString n)
      else
        let parsedKey := keys.tail
        match v with
        | .obj sub =>
            match recurseFindKey sub parsedKey (depth + 1) with
            | some found => some found
            | none =>
                if quoteFixApplies parsedKey then
                  match recurseFindKey sub (parsedKey.map stripQuotes) (depth + 1) with
                  | some found => some found
                  | none => recurseFindKey rest keys depth
                else recurseFindKey rest keys depth
        | .arr items =>
            if startsHash parsedKey then
              let parsedKey2 := if parsedKey.length > 1 then parsedKey.tail else parsedKey
              let itemList := rfkItems items parsedKey2 depth
              let marshalled := jsonCompact (.arr itemList)
              if marshalled.length > 2 then some ("schemaless_list" ++ marshalled)
              else some ""
            else recurseFindKey rest keys depth
        | _ => recurseFindKey rest keys depth

/-- The per-item expansion of the `#` case: object items are resolved
(failures skipped), non-object items are appended raw. -/
def rfkItems : List Json → List String → Nat → List Json
  | [], _, _ => []
  | .obj sub :: more, segs, depth =>
      (match recurseFindKey sub segs (depth + 1) with
       | some found => [Json.str found]
       | none => []) ++ rfkItems more segs depth
  | other :: more, segs, depth => other :: rfkItems more segs depth

end

/-- `recurseFindKey`'s value as the caller uses it: the empty string on
error (the source's error returns always carry `""`). -/
def recurseFindKeyD (input : List (String × Json)) (keys : List String)
    (depth : Nat) : String :=
  (recurseFindKey input keys depth).getD ""

/-! ## `setNestedMap`, `deepMerge`, `copyMap` (translate.go)

Helpers of the list-alignment pass: build a nested singleton-object chain
for a dot path and deep-merge it into a map. -/

/-- `copyMap`: a deep copy to avoid mutating the original.  Values are
immutable in the embedding, so the copy is the identity. -/
def copyMap (m : List (String × Json)) : List (String × Json) := m

mutual

/-- `deepMerge(dst, src)`: `src`'s bindings overwrite `dst`'s, except that
two object values are merged recursively (`dmStep` is one binding). -/
def deepMerge : List (String × Json) → List (String × Json) → List (String × Json)
  | dst, [] => dst
  | dst, (k, v) :: rest => deepMerge (dmStep dst k v) rest
  termination_by dst l => (sizeOf l, 1)

/-- One binding of `deepMerge`: overwrite, or recursively merge two
object values. -/
def dmStep (dst : List (String × Json)) (k : String) (v : Json) :
    List (String × Json) :=
  match v, Json.lookup k dst with
  | .obj vf, some (.obj df) => Json.mapSet dst k (.obj (deepMerge df vf))
  | _, _ => Json.mapSet dst k v
  termination_by (sizeOf v, 0)

end

/-- The backwards wrapping loop of `setNestedMap`: walk the path segments
from last to first (`rev` is the reversed segment list), wrapping `nested`
one object level per segment — except that `#` segments are skipped, and a
segment whose value in the *top-level* map `m` is a string *not* containing
`"schemaless_list"` is skipped too (the source logs "NOT schemaless_list"
and does not wrap); a string value containing the sentinel wraps and sets
the `found` flag. -/
def snmBuild (m : List (String × Json)) :
    List String → Json → Bool → Json × Bool
  | [], nested, found => (nested, found)
  | k :: restRev, nested, found =>
      if k = "#" then snmBuild m restRev nested found
      else
        match Json.lookup k m with
        | some (.str s) =>
            if hasSub s "schemaless_list" then
              snmBuild m restRev (.obj [(k, nested)]) true
            else snmBuild m restRev nested found
        | _ => snmBuild m restRev (.obj [(k, nested)]) found

/-- `setNestedMap(m, path, value)`: build the nested chain for `path` and
deep-merge it into (a copy of) `m`.  When the chain degenerates to a
non-object (every segment skipped), the source's type assertion
`nested.(map[string]interface{})` would panic; the embedding returns `m`
unchanged (the exercised paths always wrap at least once). -/
def setNestedMap (m : List (String × Json)) (path : String) (value : Json) :
    List (String × Json) × Bool :=
  let keys := splitDots path
  let (nested, found) := snmBuild m keys.reverse value false
  match nested with
  | .obj nf => (deepMerge (copyMap m) nf, found)
  | _ => (m, found)

/-! ## Unmarshalling a `[]string` (used on the sentinel payload)

`handleMultiListItems` re-parses the `[...]` JSON text after the
`schemaless_list` marker into a `[]string`.  The embedding is a lenient
single-pass reader: well-formed string arrays (everything `jsonCompact`
produces for string lists) parse exactly; anything else yields the empty
list, matching the source's behaviour of logging the unmarshal error and
carrying on with what it got. -/

def unescapeChar (c : Char) : Option Char :=
  if c = '"' ∨ c = '\\' ∨ c = '/' then some c
  else if c = 'n' then some '\n'
  else if c = 't' then some '\t'
  else if c = 'r' then some '\r'
  else none

def skipWsL (l : List Char) : List Char :=
  l.dropWhile (fun c => c == ' ' || c == '\t' || c == '\n' || c == '\r')

/-- State machine over the characters after the opening `[`:
`inStr` marks being inside a string literal, `esc` a pending escape. -/
def psaLoop : List Char → Bool → Bool → List Char → List String → Option (List String)
  | [], _, _, _, _ => none
  | c :: cs, true, true, cur, acc =>
      match unescapeChar c with
      | some u => psaLoop cs true false (cur ++ [u]) acc
      | none => none
  | c :: cs, true, false, cur, acc =>
      if c = '\\' then psaLoop cs true true cur acc
      else if c = '"' then psaLoop cs false false [] (acc ++ [String.mk cur])
      else psaLoop cs true false (cur ++ [c]) acc
  | c :: cs, false, _, cur, acc =>
      if c = '"' then psaLoop cs true false [] acc
      else if c = ']' then some acc
      else if c = ',' || c = ' ' || c = '\t' || c = '\n' || c = '\r' then
        psaLoop cs false false cur acc
      else none

/-- `json.Unmarshal(bytes, &[]string{})`, empty on failure. -/
def parseStringArray (s : String) : List String :=
  match skipWsL s.data with
  | '[' :: rest => (psaLoop rest false false [] []).getD []
  | _ => []

/-! ## `handleMultiListItems` (translate.go)

The list-alignment pass: walks the child object produced by a sub-template,
finds `schemaless_list[...]` sentinel strings, parses their payload, and
zips the payload items positionally into the accumulated output list,
appending copies of the *first* item when the payload is longer than the
list built so far. -/

/-- `strings.Trim(s, ".")` applied when the key starts with a dot. -/
def trimLeadDots (s : String) : String :=
  if startsHash [s] = false ∧ hasPrefixStr "." s then
    String.mk (((s.data.dropWhile (· = '.')).reverse.dropWhile (· = '.')).reverse)
  else s

/-- The `parentKeySplit` rewriting loop for nested lists (`listDepth > 0`):
count `#` segments, keep the key right before each `#`, and keep the
segment at the current list depth. -/
def nksLoop (listDepth : Nat) : List String → Nat → Int → Option String → List String
  | [], _, _, _ => []
  | part :: rest, cnt, counter, prev =>
      let counter' := if part = "#" then counter + 1 else counter
      let pre : List String :=
        if part = "#" then (if cnt > 0 then [prev.getD ""] else []) else []
      let mid : List String :=
        if counter' - 1 = (listDepth : Int) then [part] else []
      pre ++ mid ++ nksLoop listDepth rest (cnt + 1) counter' (some part)

/-- The fields of an asserted `.(map[string]interface{})`
(the panic on a non-map is out of the exercised paths). -/
def objFieldsD : Json → List (String × Json)
  | .obj fs => fs
  | _ => []

/-- The `for cnt, listValue := range unmarshalledList` loop: pad the
modification list with the first item when too short, then — if the entry
at `cnt` still holds the sentinel under `newKey` in its marshalled text —
store the payload item there via `setNestedMap`. -/
def hMLIFold : List String → List Json → Json → String → Nat → Bool →
    List Json × Bool
  | [], ml, _, _, _, upd => (ml, upd)
  | lv :: more, ml, firstItem, newKey, cnt, upd =>
      let ml1 := if cnt ≥ ml.length then ml ++ [firstItem] else ml
      let newModList := objFieldsD (ml1.getD cnt .null)
      let comparisonString := "\"" ++ newKey ++ "\":\"schemaless_list["
      if ¬ hasSub (jsonCompact (.obj newModList)) comparisonString then
        hMLIFold more ml1 firstItem newKey (cnt + 1) upd
      else
        let nm := (setNestedMap newModList newKey (.str lv)).1
        hMLIFold more (ml1.set cnt (.obj nm)) firstItem newKey (cnt + 1) true

/-- The `for inputKey := range translatedInput` loop of the nested-list
case: find the first entry still holding the sentinel under `childKey`,
merge the modification list in at `oldParentKey`, and stop. -/
def hMLITiLoop (ck oldPK : String) (modList : List Json) :
    List Json → List Json × Bool
  | [] => ([], false)
  | x :: rest =>
      let newMap := objFieldsD x
      let comparison := "\"" ++ ck ++ "\":\"schemaless_list["
      if ¬ hasSub (jsonCompact (.obj newMap)) comparison then
        let (rest', upd) := hMLITiLoop ck oldPK modList rest
        (x :: rest', upd)
      else
        ((.obj (setNestedMap newMap oldPK (.arr modList)).1) :: rest, true)

/-- The initial append of `handleMultiListItems`: when the parent key has no
dot and the accumulated output is empty, seed it with the value object. -/
def hMLIInit (parentKey : String) (ti : List Json)
    (pv : List (String × Json)) : List Json :=
  if ¬ (hasSub parentKey ".") = true ∧ ti.length = 0 then ti ++ [.obj pv] else ti

/-- A sizeOf bound for map reads, used for termination of the walk below. -/
theorem sizeOf_lookup_lt (k : String) (fs : List (String × Json)) (v : Json)
    (h : Json.lookup k fs = some v) : sizeOf v < sizeOf fs := by
  induction fs with
  | nil => simp [Json.lookup] at h
  | cons p rest ih =>
      obtain ⟨k', v'⟩ := p
      rw [Json.lookup] at h
      by_cases hk : k' = k
      · simp only [hk, if_pos] at h
        cases h
        simp
        omega
      · simp only [hk, if_neg, if_false] at h
        have := ih h
        simp
        omega

mutual

/-- The key loop of `handleMultiListItems(translatedInput, parentKey,
parsedValues, listDepth, childIndex)`.  `keys` iterates the *original*
value object's keys while `pv` tracks the current (re-bound) value object —
the source reads `parsedValues[childKey]` after re-assigning `parsedValues`
mid-loop.  Recursive descents inline the function's entry logic
(`hMLIInit` followed by this loop).  `fuel` bounds the recursion depth of
the descents (the source recurses on data it re-reads from its own output,
which no structural measure covers); with fuel at least the nesting depth
of the data the embedding is exact, and every theorem about it quantifies
over the fuel. -/
def hMLILoop : Nat → List String → List Json → List (String × Json) → String →
    Nat → Nat → List Json
  | _, [], ti, _, _, _, _ => ti
  | fuel, ck :: restKeys, ti, pv, parentKey, listDepth, childIndex =>
      match Json.lookup ck pv with
      | none => hMLILoop fuel restKeys ti pv parentKey listDepth childIndex
      | some v =>
          match v with
          | .obj sub =>
              match fuel with
              | 0 => hMLILoop 0 restKeys ti pv parentKey listDepth childIndex
              | fuel' + 1 =>
                  let newKey := parentKey ++ "." ++ ck
                  let ti' := hMLILoop fuel' (sub.map Prod.fst) (hMLIInit newKey ti sub)
                    sub newKey listDepth childIndex
                  hMLILoop (fuel' + 1) restKeys ti' pv parentKey listDepth childIndex
          | .arr val =>
              match fuel with
              | 0 => hMLILoop 0 restKeys ti pv parentKey listDepth childIndex
              | fuel' + 1 =>
                  let newKey := parentKey ++ "." ++ ck ++ ".#"
                  let ti' := hMLISub fuel' val ti newKey listDepth 0
                  hMLILoop (fuel' + 1) restKeys ti' pv parentKey listDepth childIndex
          | .str val =>
              if hasSub val "schemaless_list[" then
                match afterFirstSub val "schemaless_list" with
                | none => hMLILoop fuel restKeys ti pv parentKey listDepth childIndex
                | some matchingList =>
                    let unmarshalledList := parseStringArray matchingList
                    let oldParentKey := parentKey
                    let newParentKey :=
                      if listDepth > 0 then
                        joinDots (nksLoop listDepth (splitDots parentKey) 0 0 none)
                      else parentKey
                    let modificationList :=
                      if listDepth > 0 then [Json.obj pv] else ti
                    let firstItem := modificationList.headD .null
                    let newKey := afterFirstDot (newParentKey ++ "." ++ ck)
                    let (modList2, _) := hMLIFold unmarshalledList modificationList
                      firstItem newKey 0 false
                    if listDepth > 0 then
                      let oldPK :=
                        if hasPrefixStr "." oldParentKey then trimLeadDots oldParentKey
                        else oldParentKey
                      let (ti', upd2) := hMLITiLoop ck oldPK modList2 ti
                      let ti2 :=
                        if upd2 then ti'
                        else ti' ++ [.obj (setNestedMap [] oldPK (.arr modList2)).1]
                      let pv2 := objFieldsD (modList2.getD childIndex .null)
                      hMLILoop fuel restKeys ti2 pv2 parentKey listDepth childIndex
                    else
                      let pv2 := objFieldsD (modList2.getD childIndex .null)
                      hMLILoop fuel restKeys modList2 pv2 parentKey listDepth childIndex
              else hMLILoop fuel restKeys ti pv parentKey listDepth childIndex
          | _ => hMLILoop fuel restKeys ti pv parentKey listDepth childIndex

/-- The `for cnt, subItem := range val` loop of the list-valued-key case:
recurse into each object item with `listDepth + 1` and the running index as
`childIndex`; other items are skipped with a log. -/
def hMLISub : Nat → List Json → List Json → String → Nat → Nat → List Json
  | _, [], ti, _, _, _ => ti
  | fuel, item :: more, ti, newKey, listDepth, cnt =>
      match item with
      | .obj sub =>
          let ti' := hMLILoop fuel (sub.map Prod.fst) (hMLIInit newKey ti sub) sub
            newKey (listDepth + 1) cnt
          hMLISub fuel more ti' newKey listDepth (cnt + 1)
      | _ => hMLISub fuel more ti newKey listDepth (cnt + 1)

end

/-- `handleMultiListItems` itself: seed the output list, then walk the value
object's keys. -/
def hMLI (fuel : Nat) (ti : List Json) (parentKey : String)
    (pv : List (String × Json)) (listDepth childIndex : Nat) : List Json :=
  hMLILoop fuel (pv.map Prod.fst) (hMLIInit parentKey ti pv) pv parentKey
    listDepth childIndex

/-! ## The `$path` reference scanner of `runJsonTranslation`

The source extracts embedded references with the regular expression
`([$]{1}([a-zA-Z0-9_@-]+\.?){1}([a-zA-Z0-9#_@-]+\.?){0,})` via
`FindAllString`: a `$`, one run of word characters with an optional dot,
then any number of runs (also allowing `#`) each with an optional dot,
greedily, non-overlapping, left to right. -/

def dollarSeg1Char (c : Char) : Bool :=
  c.isAlphanum || c == '_' || c == '@' || c == '-'

def dollarSeg2Char (c : Char) : Bool :=
  dollarSeg1Char c || c == '#'

/-- The `([a-zA-Z0-9#_@-]+\.?){0,}` suffix: consume greedy repetitions,
returning (consumed, rest). -/
def dollarMore (cs : List Char) : List Char × List Char :=
  let seg := cs.takeWhile dollarSeg2Char
  if seg.isEmpty then ([], cs)
  else
    let rest := cs.drop seg.length
    if h : rest.head? = some '.' then
      let p := dollarMore rest.tail
      (seg ++ '.' :: p.1, p.2)
    else (seg, rest)
  termination_by cs.length
  decreasing_by
    have he : rest = List.drop (List.takeWhile dollarSeg2Char cs).length cs := rfl
    have h2 : rest ≠ [] := by
      intro hh
      rw [hh] at h
      simp at h
    have h3 : 0 < rest.length := List.length_pos.mpr h2
    have h1 : rest.length ≤ cs.length := by
      rw [he]
      simp
    simp only [List.length_tail]
    rw [← he]
    omega

/-- The whole reference after a `$`: `none` when no word character follows
(the regex requires at least one). -/
def dollarMatchAfter (cs : List Char) : Option (List Char × List Char) :=
  let seg1 := cs.takeWhile dollarSeg1Char
  if seg1.isEmpty then none
  else
    let rest1 := cs.drop seg1.length
    if rest1.head? = some '.' then
      let p := dollarMore rest1.tail
      some (seg1 ++ '.' :: p.1, p.2)
    else
      let p := dollarMore rest1
      some (seg1 ++ p.1, p.2)

/-- `re.FindAllString(key, -1)`: all non-overlapping matches, left to
right.  Each step consumes at least one character, so character-count fuel
makes the scan exact. -/
def findDollarMatchesAux : Nat → List Char → List String
  | 0, _ => []
  | _, [] => []
  | fuel + 1, c :: cs =>
      if c = '$' then
        match dollarMatchAfter cs with
        | some (m, rest) => String.mk ('$' :: m) :: findDollarMatchesAux fuel rest
        | none => findDollarMatchesAux fuel cs
      else findDollarMatchesAux fuel cs

def findDollarMatchesL (l : List Char) : List String :=
  findDollarMatchesAux l.length l

/-- `getParsedMatch`: trim spaces, strip the leading `$`, strip one
trailing `.`. -/
def getParsedMatch (m : String) : String :=
  let m1 := trimSpace m
  let m2 := if hasPrefixStr "$" m1 then m1.drop 1 else m1
  if hasSuffixStr "." m2 then m2.dropRight 1 else m2

/-! ## `runJsonTranslation` (translate.go)

Forward Application.  The translation map is walked entry by entry; for
each entry the *first loop* looks for an input key equal to the entry's
value (writing the match back into `modifiedParsedInput`, which aliases
`parsedInput` — so earlier entries can change what later entries see), and
unmatched entries dispatch on the template value's type: numbers and other
scalars copy through, nested maps recurse against the same original input
bytes, strings resolve paths via `recurseFindKey` (with `$`-interpolation),
and lists translate element-wise with the `schemaless_list` alignment pass.
`hFuel` is the descent fuel forwarded to `handleMultiListItems`. -/

mutual

/-- The entry loop: `tpl` the remaining template entries, `pi` the current
(mutated) `parsedInput`/`modifiedParsedInput`, `acc` the accumulated
`translatedInput`. -/
def runJTAux (pi0 : List (String × Json)) (hFuel : Nat) :
    List (String × Json) → List (String × Json) → List (String × Json) →
      List (String × Json)
  | [], _pi, acc => acc
  | (tk, tv) :: more, pi, acc =>
      match tv with
      | .str tvs =>
          match Json.lookup tvs pi with
          | some v =>
              runJTAux pi0 hFuel more (Json.mapSet pi tk v) (Json.mapSet acc tk v)
          | none =>
              let acc' :=
                if hasSub tvs "." then
                  let key1 := replaceAll tvs "[]" ".#"
                  let key2 := stripQuotes key1
                  if hasSub tvs "$" then
                    let ms := findDollarMatchesL key2.data
                    let newOutput := ms.foldl
                      (fun out m =>
                        replaceAll out m
                          (recurseFindKeyD pi (splitDots (getParsedMatch m)) 0))
                      tvs
                    Json.mapSet acc tk (.str newOutput)
                  else
                    Json.mapSet acc tk (.str (recurseFindKeyD pi (splitDots key2) 0))
                else Json.mapSet acc tk (.str tvs)
              runJTAux pi0 hFuel more pi acc'
      | .num n => runJTAux pi0 hFuel more pi (Json.mapSet acc tk (.num n))
      | .arr val =>
          let (newOutput, tval) := runJTList pi0 hFuel pi val [] (.arr val)
          let acc' :=
            if newOutput.length > 0 then Json.mapSet acc tk (.arr newOutput)
            else Json.mapSet acc tk tval
          runJTAux pi0 hFuel more pi acc'
      | .obj val =>
          let child := runJTAux pi0 hFuel val pi0 []
          let acc' :=
            if child.length = 0 then Json.mapSet acc tk (.obj val)
            else Json.mapSet acc tk (.obj child)
          runJTAux pi0 hFuel more pi acc'
      | other => runJTAux pi0 hFuel more pi (Json.mapSet acc tk other)

/-- The list-valued template entry loop: element maps are translated
recursively against the original input; when a translated element's
marshalled text contains the `schemaless_list[` sentinel, the alignment
pass runs, the loop breaks, and its result replaces the running
`translationValue`; element path-strings re-bind `translationValue`; other
elements are appended as-is. -/
def runJTList (pi0 : List (String × Json)) (hFuel : Nat)
    (pi : List (String × Json)) :
    List Json → List Json → Json → List Json × Json
  | [], acc, tval => (acc, tval)
  | v :: more, acc, tval =>
      match v with
      | .obj sub =>
          let child := runJTAux pi0 hFuel sub pi0 []
          let acc' := acc ++ [.obj child]
          if hasSub (jsonIndent (.obj child) 0) "schemaless_list[" then
            ([], .arr (hMLI hFuel acc' "" child 0 0))
          else runJTList pi0 hFuel pi more acc' tval
      | .str s =>
          let sk1 := replaceAll s "[]" ".#"
          let sk2 := stripQuotes sk1
          match recurseFindKey pi (splitDots sk2) 0 with
          | some r => runJTList pi0 hFuel pi more acc (.arr [.str r])
          | none => runJTList pi0 hFuel pi more acc (.arr [])
      | other => runJTList pi0 hFuel pi more (acc ++ [other]) tval

end

/-- `runJsonTranslation(ctx, inputValue, translation, keepOriginal...)`:
`pi` is the parse of `inputValue` (a non-object input fails to unmarshal
and errors out before any translation).  Returns the `translatedInput`
object; the mutated `modifiedParsedInput` return is discarded by the
caller. -/
def runJsonTranslation (hFuel : Nat) (pi : List (String × Json))
    (tpl : List (String × Json)) (keepOriginal : Bool) : List (String × Json) :=
  runJTAux pi hFuel tpl pi
    (if keepOriginal then [("unmapped", .obj pi)] else [])

/-! ## `ReverseTranslate` (reverse.go)

Reverse Inference: walk the source tree and, for each string leaf, look the
value up among the target keys' values; record the dot-path at the first
matching target key.  Nested objects recurse and re-prefix the discovered
paths; list items record `key.#i` / `key.#i.child`; string leaves that look
like embedded JSON objects are decoded and walked as objects.  The result
map is initialized with every target key bound to `""`.

`decode` stands for `json.Unmarshal` on an embedded JSON string (the
`encoding/json` parser is outside this package; on failure the source
proceeds with the empty map, i.e. `.getD []`).  `fuel` bounds the recursion
depth (decoding can nest arbitrarily); with fuel at least the nesting depth
the embedding is exact, and a fuel-starved branch simply discovers nothing,
leaving `""` bindings. -/

/-- `FindMatchingString`: the first target key whose value is exactly the
string searched for; `""` when there is none.  (The source iterates a Go
map in unspecified order; the embedding fixes the association-list order.) -/
def findMatchingString (stringToFind : String) :
    List (String × Json) → String
  | [] => ""
  | (k, .str v) :: rest =>
      if v = stringToFind then k else findMatchingString stringToFind rest
  | (_, .null) :: rest => findMatchingString stringToFind rest
  | (_, .bool _) :: rest => findMatchingString stringToFind rest
  | (_, .num _) :: rest => findMatchingString stringToFind rest
  | (_, .arr _) :: rest => findMatchingString stringToFind rest
  | (_, .obj _) :: rest => findMatchingString stringToFind rest

/-- Go map write on the inference result map. -/
def strMapSet (m : List (String × String)) (k v : String) :
    List (String × String) :=
  if (m.map Prod.fst).contains k then
    m.map (fun p => if p.1 = k then (k, v) else p)
  else
    m ++ [(k, v)]

/-- The result map every key of `searchInMap` starts in, bound to `""`. -/
def rtInit (searchInMap : List (String × Json)) : List (String × String) :=
  searchInMap.map (fun p => (p.1, ""))

/-- The embedded-JSON gate: the trimmed string starts with `{`, ends with
`}` and contains a `"`. -/
def gateJson (s : String) : Bool :=
  (match s.data with
   | '{' :: _ => true
   | _ => false) &&
  (match s.data.getLast? with
   | some '}' => true
   | _ => false) &&
  s.data.contains '"'

/-- The first step of `ReverseTranslate`'s entry handling: a string value
that looks like an embedded JSON object (after trimming) is decoded and
replaces the value (the empty object when decoding fails); everything else
passes through. -/
def rtAdjustValue (decode : String → Option (List (String × Json)))
    (value : Json) : Json :=
  match value with
  | .str val =>
      let tval := trimSpace val
      if gateJson tval then .obj ((decode tval).getD []) else .str val
  | v => v

/-- Merge a recursive inference result into the running map: non-empty
child paths are re-prefixed with the current key. -/
def rtMerge (key : String) : List (String × String) → List (String × String) →
    List (String × String)
  | nm, [] => nm
  | nm, (k, v) :: rest =>
      if v = "" then rtMerge key nm rest
      else rtMerge key (strMapSet nm k (key ++ "." ++ v)) rest

/-- Merge a list item's recursive inference result: non-empty child paths
become `key.#i.child`. -/
def rtMergeIdx (key : String) (i : Nat) :
    List (String × String) → List (String × String) → List (String × String)
  | nm, [] => nm
  | nm, (k, v) :: rest =>
      if v = "" then rtMergeIdx key i nm rest
      else rtMergeIdx key i (strMapSet nm k (key ++ ".#" ++ toString i ++ "." ++ v)) rest

mutual

/-- The entry loop of `ReverseTranslate(sourceMap, searchInMap)` over the
remaining source entries, accumulating the result map. -/
def rtLoop (decode : String → Option (List (String × Json))) :
    Nat → List (String × Json) → List (String × Json) →
      List (String × String) → List (String × String)
  | _, [], _, newMap => newMap
  | fuel, (key, value) :: rest, searchInMap, newMap =>
      match rtAdjustValue decode value with
      | .str val =>
          let matching := findMatchingString val searchInMap
          if matching = "" then rtLoop decode fuel rest searchInMap newMap
          else rtLoop decode fuel rest searchInMap (strMapSet newMap matching key)
      | .obj val =>
          match fuel with
          | 0 => rtLoop decode 0 rest searchInMap newMap
          | fuel' + 1 =>
              let out := rtLoop decode fuel' val searchInMap (rtInit searchInMap)
              rtLoop decode (fuel' + 1) rest searchInMap (rtMerge key newMap out)
      | .arr val =>
          match fuel with
          | 0 => rtLoop decode 0 rest searchInMap newMap
          | fuel' + 1 =>
              let newMap' := rtListLoop decode fuel' val searchInMap newMap key 0
              rtLoop decode (fuel' + 1) rest searchInMap newMap'
      | .null => rtLoop decode fuel rest searchInMap newMap
      | .bool b => rtLoop decode fuel rest searchInMap newMap
      | .num n => rtLoop decode fuel rest searchInMap newMap

/-- The `for i, v := range val` loop over a source list. -/
def rtListLoop (decode : String → Option (List (String × Json))) :
    Nat → List Json → List (String × Json) → List (String × String) →
      String → Nat → List (String × String)
  | _, [], _, nm, _, _ => nm
  | fuel, v :: moreItems, searchInMap, nm, key, i =>
      match v with
      | .str sv =>
          if sv = "" then rtListLoop decode fuel moreItems searchInMap nm key (i + 1)
          else
            let matching := findMatchingString sv searchInMap
            if matching = "" then
              rtListLoop decode fuel moreItems searchInMap nm key (i + 1)
            else
              rtListLoop decode fuel moreItems searchInMap
                (strMapSet nm matching (key ++ ".#" ++ toString i)) key (i + 1)
      | .obj mv =>
          let out := rtLoop decode fuel mv searchInMap (rtInit searchInMap)
          rtListLoop decode fuel moreItems searchInMap
            (rtMergeIdx key i nm out) key (i + 1)
      | .null => rtListLoop decode fuel moreItems searchInMap nm key (i + 1)
      | .bool b => rtListLoop decode fuel moreItems searchInMap nm key (i + 1)
      | .num n => rtListLoop decode fuel moreItems searchInMap nm key (i + 1)
      | .arr xs => rtListLoop decode fuel moreItems searchInMap nm key (i + 1)

end

/-- `ReverseTranslate(sourceMap, searchInMap)` (the marshal/unmarshal of the
`map[string]string` between recursion levels is the identity and elided). -/
def reverseTranslate (decode : String → Option (List (String × Json)))
    (fuel : Nat) (sourceMap searchInMap : List (String × Json)) :
    List (String × String) :=
  rtLoop decode fuel sourceMap searchInMap (rtInit searchInMap)

/-! ## Shape fingerprinting: the `keyToken` of `RemoveJsonValues`

`RemoveJsonValues(input, depth)` walks a JSON object and builds the shape
key token: it collects the object's keys, sorts them (`sort.Strings`), and
for each key that does not end in a decimal digit appends the key name,
followed — when the value is an object, the recursion's token is non-empty
and `depth < 3` — by `"." + childToken`.  Keys ending in a digit are
skipped (and deleted from the skeleton); tokens of objects sitting inside
lists are computed but discarded (`_ = newKeyToken`); non-object inputs
fail to unmarshal and produce the empty token.  `Translate` invokes it with
`depth = 1` and uses `md5(keyToken)` in the cache file name / cache key.

The embedding computes, per key, the pair (key, its token contribution),
sorts the pairs by key and concatenates the contributions; on the
duplicate-free association lists that embed Go maps this equals sorting the
key strings and looking each one up, and byte-wise `sort.Strings` order
coincides with code-point order on `List Char` (UTF-8 is order-preserving). -/

/-- Concatenate the token contributions in sorted key order. -/
def joinSortedContribs (l : List (String × String)) : String :=
  String.join ((List.insertionSort keyLE l).map Prod.snd)

mutual

/-- One level of token building: each key is paired with its contribution to
`keyToken` — the empty string for digit-suffixed keys (skipped by the
source's loop), otherwise the key itself plus the optional child extension. -/
def tokenContribs : List (String × Json) → Int → List (String × String)
  | [], _ => []
  | (k, v) :: rest, depth =>
      (k, if endsDigit k then "" else k ++ tokenChildExt v depth) ::
        tokenContribs rest depth

/-- The `"." + newKeyToken` extension a key's value adds to the token:
only object values contribute, only while `depth < 3`, and only when the
child token is non-empty.  List values contribute nothing (the recursion's
token is discarded), scalars contribute nothing. -/
def tokenChildExt : Json → Int → String
  | .obj gs, depth =>
      let t := joinSortedContribs (tokenContribs gs (depth + 1))
      if depth < 3 ∧ t ≠ "" then "." ++ t else ""
  | _, _ => ""

end

/-- The `keyToken` of `RemoveJsonValues` for one object level. -/
def fieldsToken (fs : List (String × Json)) (depth : Int) : String :=
  joinSortedContribs (tokenContribs fs depth)

/-- The `keyToken` returned by `RemoveJsonValues(input, depth)`:
empty for non-object input (unmarshal failure). -/
def jsonToken : Json → Int → String
  | .obj fs, depth => fieldsToken fs depth
  | _, _ => ""

mutual

/-- The claim's equivalence on documents "differing only in scalar leaf
values and in the presence of digit-suffixed keys": erase every scalar leaf
to `null` and drop every object key ending in a digit, at every level. -/
def eraseShape : Json → Json
  | .obj fs => .obj (eraseFields fs)
  | .arr xs => .arr (eraseItems xs)
  | _ => .null

def eraseFields : List (String × Json) → List (String × Json)
  | [] => []
  | (k, v) :: rest =>
      if endsDigit k then eraseFields rest
      else (k, eraseShape v) :: eraseFields rest

def eraseItems : List Json → List Json
  | [] => []
  | x :: xs => eraseShape x :: eraseItems xs

end

mutual

/-- The token-relevant content of a document whose fields would be tokenized
at depth `d`: scalars and list contents are irrelevant, digit-suffixed keys
are irrelevant, and object structure below token depth 3 is irrelevant. -/
def truncShape : Json → Int → Json
  | .obj fs, d => if d > 3 then .null else .obj (truncFields fs d)
  | .arr _, _ => .arr []
  | _, _ => .null

def truncFields : List (String × Json) → Int → List (String × Json)
  | [], _ => []
  | (k, v) :: rest, d =>
      if endsDigit k then truncFields rest d
      else (k, truncShape v (d + 1)) :: truncFields rest d

end

/-! ### Fingerprint stability

The key token depends only on key names: digit-suffixed keys contribute the
empty string and are dropped by erasure, list contents never reach the
token, and nesting below token depth 3 is masked.  The lemmas below make
this precise: the token is invariant under `truncShape`, and `eraseShape`
(the claim's "differ only in scalar leaf values and digit-suffixed keys"
relation) refines `truncShape`. -/

theorem orderedInsert_eq_cons {α : Type} (r : α → α → Prop) [DecidableRel r]
    (a : α) (l : List α) (h : ∀ x ∈ l, r a x) :
    List.orderedInsert r a l = a :: l := by
  cases l with
  | nil => rfl
  | cons b t => simp [List.orderedInsert, h b (by simp)]

/-- Stable sorting commutes with filtering: inserting into the sorted tail
and then filtering equals filtering first (provided the tail is sorted and
the order is transitive). -/
theorem filter_orderedInsert {α : Type} (p : α → Bool) (r : α → α → Prop)
    [DecidableRel r] [IsTrans α r] (a : α) (l : List α) (hl : l.Sorted r) :
    (List.orderedInsert r a l).filter p =
      if p a then List.orderedInsert r a (l.filter p) else l.filter p := by
  induction l with
  | nil => by_cases hp : p a <;> simp [List.orderedInsert, hp]
  | cons b t ih =>
      have hbt : ∀ x ∈ t, r b x := (List.sorted_cons.mp hl).1
      have ht : t.Sorted r := (List.sorted_cons.mp hl).2
      have haft : ∀ (hab : r a b), ∀ x ∈ t.filter p, r a x := fun hab x hx =>
        IsTrans.trans a b x hab (hbt x (List.mem_of_mem_filter hx))
      by_cases hab : r a b
      · by_cases hpb : p b
        · by_cases hpa : p a <;>
            simp [List.orderedInsert, hab, List.filter_cons, hpa, hpb]
        · by_cases hpa : p a
          · simp only [List.orderedInsert, if_pos hab, List.filter_cons, hpa, hpb,
              if_pos, Bool.false_eq_true, if_false, if_true]
            rw [orderedInsert_eq_cons r a (t.filter p) (haft hab)]
          · simp [List.orderedInsert, hab, List.filter_cons, hpa, hpb]
      · by_cases hpb : p b
        · by_cases hpa : p a <;>
            simp [List.orderedInsert, hab, List.filter_cons, hpa, hpb, ih ht]
        · by_cases hpa : p a <;>
            simp [List.orderedInsert, hab, List.filter_cons, hpa, hpb, ih ht]

theorem filter_insertionSort {α : Type} (p : α → Bool) (r : α → α → Prop)
    [DecidableRel r] [IsTrans α r] [IsTotal α r] (l : List α) :
    (List.insertionSort r l).filter p = List.insertionSort r (l.filter p) := by
  induction l with
  | nil => rfl
  | cons a t ih =>
      show (List.orderedInsert r a (List.insertionSort r t)).filter p = _
      rw [filter_orderedInsert p r a _ (List.sorted_insertionSort r t), ih]
      by_cases hpa : p a <;> simp [List.filter_cons, hpa, List.insertionSort]

/-- Dropping pairs whose contribution is empty does not change the
concatenation. -/
theorem join_filter_of_empty (p : String × String → Bool)
    (l : List (String × String)) (h : ∀ x ∈ l, p x = false → x.2 = "") :
    String.join ((l.filter p).map Prod.snd) = String.join (l.map Prod.snd) := by
  suffices haux : ∀ (acc : String),
      List.foldl (· ++ ·) acc ((l.filter p).map Prod.snd) =
        List.foldl (· ++ ·) acc (l.map Prod.snd) by
    exact haux ""
  induction l with
  | nil => intro acc; rfl
  | cons x t ih =>
      intro acc
      by_cases hpx : p x
      · simp only [List.filter_cons, hpx, if_pos, List.map_cons, List.foldl_cons]
        exact ih (fun y hy => h y (List.mem_cons_of_mem x hy)) (acc ++ x.2)
      · have hx2 : x.2 = "" := h x (List.mem_cons_self x t) (by simpa using hpx)
        simp only [List.filter_cons, hpx, Bool.false_eq_true, if_false,
          List.map_cons, List.foldl_cons, hx2, String.append_empty]
        exact ih (fun y hy => h y (List.mem_cons_of_mem x hy)) acc

/-- Digit-suffixed keys always carry the empty contribution. -/
theorem tokenContribs_digit_empty (fs : List (String × Json)) (d : Int) :
    ∀ x ∈ tokenContribs fs d, endsDigit x.1 = true → x.2 = "" := by
  induction fs with
  | nil => simp [tokenContribs]
  | cons kv rest ih =>
      obtain ⟨k, v⟩ := kv
      intro x hx hdig
      rw [tokenContribs] at hx
      rcases List.mem_cons.mp hx with h | h
      · subst h
        simp only at hdig ⊢
        simp [hdig]
      · exact ih x h hdig

/-- Filtering out the digit-suffixed keys' (empty) contributions leaves the
sorted concatenation unchanged. -/
theorem joinSorted_filter_digit (l : List (String × String))
    (h : ∀ x ∈ l, endsDigit x.1 = true → x.2 = "") :
    joinSortedContribs (l.filter (fun p => !endsDigit p.1)) = joinSortedContribs l := by
  unfold joinSortedContribs
  rw [← filter_insertionSort (fun p => !endsDigit p.1) keyLE l]
  apply join_filter_of_empty
  intro x hx hpx
  exact h x ((List.perm_insertionSort keyLE l).mem_iff.mp hx) (by simpa using hpx)

mutual

/-- Truncation does not change a value's token extension. -/
theorem tokenChildExt_trunc : ∀ (j : Json) (d : Int),
    tokenChildExt (truncShape j (d + 1)) d = tokenChildExt j d
  | .obj gs, d => by
      by_cases h : d + 1 > 3
      · have hd : ¬ (d < 3) := by omega
        simp [truncShape, h, tokenChildExt, hd]
      · rw [truncShape]
        simp only [h, if_neg, if_false]
        rw [tokenChildExt, tokenChildExt]
        rw [tokenContribs_trunc gs (d + 1),
          joinSorted_filter_digit _ (tokenContribs_digit_empty gs (d + 1))]
  | .arr xs, _ => by simp [truncShape, tokenChildExt]
  | .null, _ => by simp [truncShape, tokenChildExt]
  | .bool b, _ => by simp [truncShape, tokenChildExt]
  | .num n, _ => by simp [truncShape, tokenChildExt]
  | .str s, _ => by simp [truncShape, tokenChildExt]

/-- The contributions of truncated fields are the non-digit-keyed
contributions of the original fields. -/
theorem tokenContribs_trunc : ∀ (fs : List (String × Json)) (d : Int),
    tokenContribs (truncFields fs d) d =
      (tokenContribs fs d).filter (fun p => !endsDigit p.1)
  | [], d => by simp [truncFields, tokenContribs]
  | (k, v) :: rest, d => by
      by_cases hk : endsDigit k
      · simp [truncFields, hk, tokenContribs, tokenContribs_trunc rest d,
          List.filter_cons]
      · simp only [truncFields, hk, Bool.false_eq_true, if_false, tokenContribs,
          tokenContribs_trunc rest d, tokenChildExt_trunc v d, List.filter_cons]
        simp [hk]

end

/-- The shape token is blind to truncation. -/
theorem jsonToken_trunc (j : Json) : jsonToken (truncShape j 1) 1 = jsonToken j 1 := by
  cases j with
  | obj fs =>
      rw [truncShape]
      simp only [show ¬ ((1 : Int) > 3) by omega, if_neg, if_false]
      rw [jsonToken, jsonToken]
      unfold fieldsToken
      rw [tokenContribs_trunc fs 1,
        joinSorted_filter_digit _ (tokenContribs_digit_empty fs 1)]
  | arr xs => simp [truncShape, jsonToken]
  | null => simp [truncShape, jsonToken]
  | bool b => simp [truncShape, jsonToken]
  | num n => simp [truncShape, jsonToken]
  | str s => simp [truncShape, jsonToken]

mutual

/-- Erasure (zeroing scalar leaves, dropping digit-suffixed keys) refines
truncation: truncating an erased document is truncating the original. -/
theorem truncShape_erase : ∀ (j : Json) (d : Int),
    truncShape (eraseShape j) d = truncShape j d
  | .obj fs, d => by
      rw [eraseShape, truncShape, truncShape, truncFields_erase fs d]
  | .arr xs, _ => by simp [eraseShape, truncShape]
  | .null, _ => by simp [eraseShape, truncShape]
  | .bool b, _ => by simp [eraseShape, truncShape]
  | .num n, _ => by simp [eraseShape, truncShape]
  | .str s, _ => by simp [eraseShape, truncShape]

theorem truncFields_erase : ∀ (fs : List (String × Json)) (d : Int),
    truncFields (eraseFields fs) d = truncFields fs d
  | [], _ => by simp [eraseFields, truncFields]
  | (k, v) :: rest, d => by
      by_cases hk : endsDigit k
      · simp [eraseFields, truncFields, hk, truncFields_erase rest d]
      · simp [eraseFields, truncFields, hk, truncFields_erase rest d,
          truncShape_erase v (d + 1)]

end

/-! ## Claim C9: the `handleSubStandard` fan-out loop

`handleSubStandard` iterates `for cnt, listItem := range listJson`, translating
item 0 synchronously and scheduling the rest, and breaks once
`cnt > skipAfterCount` (with `skipAfterCount := 50`) — after the item with
that index has already been scheduled.  The embedding captures which list
items are ever submitted for translation; the translations themselves run
concurrently and their results are appended under a mutex, so their *order*
is not modelled (the claim does not speak about it). -/

/-- `skipAfterCount := 50` in `handleSubStandard`. -/
def skipAfterCount : Nat := 50

/-- The items of `listJson` that `handleSubStandard`'s loop submits for
translation: each iteration processes its item first and only then tests
`cnt > skipAfterCount`, breaking after the item at that index was scheduled. -/
def subStandardScheduled : List Json → Nat → List Json
  | [], _ => []
  | x :: rest, cnt =>
      x :: (if cnt > skipAfterCount then [] else subStandardScheduled rest (cnt + 1))

/-! ## Claim C6: the single-flight coordinator in `GptTranslate`

`GptTranslate` hashes the query, then:
* if the `<hash>-started` lock key is present in the cache, it polls the
  result key in a loop (`maxIter := 6`): each iteration reads the cache,
  returns the value on a hit, and otherwise breaks once `cnt >= maxIter`
  (so the key is read at attempts `0, 1, …, maxIter`);
* if the lock key is absent, it writes the lock;
* either way it then reads the result key once more and, on a miss, performs
  the expensive generation itself.

The cache is embedded as an oracle `poll : Nat → Option String` giving the
value of the result key at the n-th read (the fixed 5-second sleep between
polls is not part of the state model), plus a flag for the lock key. -/

/-- `maxIter := 6` in `GptTranslate`'s poll loop. -/
def maxIter : Nat := 6

/-- One outcome of `GptTranslate`'s coordination phase. -/
inductive GptOutcome where
  | fromCache (s : String)
  | generated
deriving Repr, DecidableEq

/-- The poll loop of `GptTranslate` (lock already held by someone else):
repeatedly read the result key; return it when present; stop after the read
with `cnt = maxIter`.  `attempt` counts the reads made so far. -/
def gptPollLoop (poll : Nat → Option String) (attempt cnt : Nat) : Option String :=
  match poll attempt with
  | some s => some s
  | none =>
      if h : cnt ≥ maxIter then none
      else gptPollLoop poll (attempt + 1) (cnt + 1)
  termination_by maxIter + 1 - cnt

/-- The single-flight coordination of `GptTranslate`.  `lockPresent` is the
`GetCache(cacheKeyStarted)` result; `poll n` is the value of the result key
at its n-th read (the final pre-generation read included); the second
component records whether this caller wrote the lock key. -/
def gptCoordinate (lockPresent : Bool) (poll : Nat → Option String) :
    GptOutcome × Bool :=
  if lockPresent then
    match gptPollLoop poll 0 0 with
    | some s => (.fromCache s, false)
    | none =>
        -- fell out of the poll loop: one more cache read, then generation
        match poll (maxIter + 1) with
        | some s => (.fromCache s, false)
        | none => (.generated, false)
  else
    -- lock absent: write the lock, check the result key once, else generate
    match poll 0 with
    | some s => (.fromCache s, true)
    | none => (.generated, true)

end Schemaless



/-! # Theorems -/

namespace Schemaless

/-- The per-item update `MapValueToLocation` applies at a selected list index
(for a location whose remaining segments after the list key are the selector
followed by `subParts`; the selector is dropped before recursion). -/
def mvtlItemUpd (subParts : List String) (value : String) : Json → Json
  | .obj sub => Json.obj (mvtl sub subParts value)
  | other => other

/-- Map with the absolute position of each element (`f i` applied to the
element at overall index `i`, the first element sitting at index `start`). -/
def mapWithIdx (f : Nat → α → β) : List α → Nat → List β
  | [], _ => []
  | a :: l, start => f start a :: mapWithIdx f l (start + 1)

/-- Result-map lookup (`outputMap[k]`). -/
def strLookup (k : String) : List (String × String) → Option String
  | [] => none
  | (k', v) :: rest => if k' = k then some v else strLookup k rest

/-- A key the round-trip theorem considers clean: non-empty and free of the
separator and operator characters Forward Application gives meaning to. -/
def cleanKey (k : String) : Bool :=
  !(k.data.isEmpty) && !(k.data.contains '.') && !(k.data.contains '$') &&
  !(k.data.contains '[') && !(k.data.contains '"')

mutual

/-- Round-trip-safe source values: no lists, no embedded-JSON string leaves
(`rtAdjustValue`'s gate stays closed), objects recursively safe with clean,
duplicate-free keys. -/
def srcValOK : Json → Bool
  | .str s => !(gateJson (trimSpace s))
  | .obj fs => srcFieldsOK fs
  | .arr _ => false
  | .null => true
  | .bool _ => true
  | .num _ => true

def srcFieldsOK : List (String × Json) → Bool
  | [] => true
  | (k, v) :: rest =>
      cleanKey k && !((rest.map Prod.fst).contains k) && srcValOK v && srcFieldsOK rest

end

/-- The specification-level reading of a dot path: follow object fields
segment by segment. -/
def specResolve : List (String × Json) → List String → Option Json
  | _, [] => none
  | fs, [k] => Json.lookup k fs
  | fs, k :: k2 :: rest =>
      match Json.lookup k fs with
      | some (.obj sub) => specResolve sub (k2 :: rest)
      | _ => none

/-- Paths built by Reverse Inference from clean keys: non-empty and free of
`$`, `[`, `"` (dots allowed). -/
def pathOK (p : String) : Bool :=
  !(p.data.isEmpty) && !(p.data.contains '$') && !(p.data.contains '[') &&
  !(p.data.contains '"')

/-- Soundness of one inference binding: empty, or a clean path that
`specResolve` takes to exactly the target value it was matched against. -/
def soundB (fs tgt : List (String × Json)) (e : String × String) : Prop :=
  e.2 = "" ∨ (pathOK e.2 = true ∧ ∃ v, Json.lookup e.1 tgt = some (.str v) ∧
    specResolve fs (splitDots e.2) = some (.str v))


/-! ### List-selector facts about `MapValueToLocation` -/

theorem mem_rangeInts {lo hi x : Int} : x ∈ rangeInts lo hi ↔ lo ≤ x ∧ x ≤ hi := by
  unfold rangeInts
  simp only [List.mem_map, List.mem_range]
  constructor
  · rintro ⟨j, hj, rfl⟩
    omega
  · rintro ⟨h1, h2⟩
    refine ⟨(x - lo).toNat, by omega, by omega⟩

theorem length_rangeInts {lo hi : Int} : (rangeInts lo hi).length = (hi + 1 - lo).toNat := by
  unfold rangeInts
  rw [List.length_map, List.length_range]

theorem mvtlLoop_eq (items : List Json) (idxs : List Int) (k sel : String)
    (subParts : List String) (value : String) (i : Nat)
    (hsel : hasSub sel "#" = true) (hsub : subParts ≠ []) :
    mvtlLoop items idxs (k :: sel :: subParts) value i =
      mapWithIdx
        (fun j it => if (j : Int) ∈ idxs then mvtlItemUpd subParts value it else it)
        items i := by
  induction items generalizing i with
  | nil => simp [mvtlLoop, mapWithIdx]
  | cons item more ih =>
      have hlen : ¬ (sel :: subParts).length < 2 := by
        cases subParts with
        | nil => exact absurd rfl hsub
        | cons a b => simp
      have hlen' : 1 ≤ subParts.length := List.length_pos.mpr hsub
      have hitem : mvtlLoopItem (k :: sel :: subParts) value item =
          [mvtlItemUpd subParts value item] := by
        cases item <;> simp [mvtlLoopItem, mvtlItemUpd, hlen, hsel, hlen']
      rw [mvtlLoop]
      by_cases hmem : ((i : Int) ∈ idxs)
      · simp [mapWithIdx, hmem, hitem, ih (i + 1)]
      · simp [mapWithIdx, hmem, ih (i + 1)]

/-- When every index the walk can meet is selected, the indexed update is a
plain map of the item update. -/
theorem mapWithIdx_all_mem (items : List Json) (len : Nat) (subParts : List String)
    (value : String) (i : Nat) (h : i + items.length ≤ len) :
    mapWithIdx
      (fun j it => if (j : Int) ∈ (List.range len).map Int.ofNat
        then mvtlItemUpd subParts value it else it)
      items i = items.map (mvtlItemUpd subParts value) := by
  induction items generalizing i with
  | nil => simp [mapWithIdx]
  | cons item more ih =>
      have hmem : ((i : Int) ∈ (List.range len).map Int.ofNat) := by
        simp only [List.mem_map, List.mem_range]
        exact ⟨i, by simp at h ⊢; omega, rfl⟩
      simp only [mapWithIdx, hmem, if_pos, List.map_cons]
      exact congrArg _ (ih (i + 1) (by simp at h ⊢; omega))

theorem mapWithIdx_congr (f g : Nat → α → β) (l : List α) (i : Nat)
    (h : ∀ j a, f j a = g j a) : mapWithIdx f l i = mapWithIdx g l i := by
  induction l generalizing i with
  | nil => rfl
  | cons a l ih => simp [mapWithIdx, h, ih]

theorem mvtl_cons_arr (k : String) (items : List Json) (rest : List (String × Json))
    (parts : List String) (value : String)
    (hhead : parts.headD "" = k) (hlen : parts.length ≠ 1) :
    mvtl ((k, Json.arr items) :: rest) parts value =
      (match mvtlCorrectIndexes parts items.length with
       | none => (k, Json.arr items)
       | some idxs => (k, Json.arr (mvtlLoop items idxs parts value 0))) ::
        mvtl rest parts value := by
  rw [mvtl]
  simp only [hhead, ne_eq, not_true_eq_false, reduceIte, hlen, if_false]

/-- `MapValueToLocation` with the `#` selector visits every one of the
`len(list)` items: location `k.#.sub` applied to `{k: items}` updates every
item (objects are recursed into with location `sub`, the rest kept as-is). -/
theorem mvtl_hash_selects_all (k sub value : String) (items : List Json) :
    mvtl [(k, Json.arr items)] [k, "#", sub] value =
      [(k, Json.arr (items.map (mvtlItemUpd [sub] value)))] := by
  rw [mvtl_cons_arr k items [] [k, "#", sub] value rfl (by simp)]
  have hidx : mvtlCorrectIndexes [k, "#", sub] items.length =
      some ((List.range items.length).map Int.ofNat) := by
    simp [mvtlCorrectIndexes]
  simp only [hidx]
  rw [mvtlLoop_eq items _ k "#" [sub] value 0 rfl (by simp)]
  rw [mapWithIdx_all_mem items items.length [sub] value 0 (by simp)]
  rfl

/-- `MapValueToLocation` with an in-scope `#N-M` selector updates exactly the
items whose index lies in `[N, M]` and leaves all other bindings and items
untouched.  The selector string is characterized through the same string
primitives the source applies to it. -/
theorem mvtl_range_selects (k sel sPart ePart sub value : String) (items : List Json)
    (N M : Int)
    (h1 : hasPrefixStr "#" sel = true) (h2 : sel ≠ "#")
    (h3 : hasSub sel "-" = true) (h4 : splitChar '-' sel = [sPart, ePart])
    (h5 : parseGoInt (trimHash sPart) = some N)
    (h6 : parseGoInt (trimHash ePart) = some M)
    (h7 : 0 ≤ N) (hsel : hasSub sel "#" = true) :
    mvtl [(k, Json.arr items)] [k, sel, sub] value =
      [(k, Json.arr (mapWithIdx
        (fun j it => if N ≤ (j : Int) ∧ (j : Int) ≤ M
          then mvtlItemUpd [sub] value it else it) items 0))] := by
  rw [mvtl_cons_arr k items [] [k, sel, sub] value rfl (by simp)]
  have hidx : mvtlCorrectIndexes [k, sel, sub] items.length = some (rangeInts N M) := by
    simp only [mvtlCorrectIndexes, h1, if_pos, h2, if_neg, h3, h4, h5, h6]
    simp [not_lt.mpr h7, not_lt]
  simp only [hidx]
  rw [mvtlLoop_eq items _ k sel [sub] value 0 hsel (by simp)]
  rw [mapWithIdx_congr _ _ items 0
    (fun j a => if_congr mem_rangeInts rfl rfl)]
  rfl

/-- With an empty selected-index set the list walk changes nothing. -/
theorem mvtlLoop_empty_idxs (items : List Json) (parts : List String)
    (value : String) (i : Nat) :
    mvtlLoop items ([] : List Int) parts value i = items := by
  induction items generalizing i with
  | nil => rfl
  | cons item more ih => simp [mvtlLoop, ih (i + 1)]

/-- A reversed range `#N-M` with `N > M` selects no index at all: the map is
returned unchanged (and `MapValueToLocation` has no error channel, so no
failure of any kind is reported). -/
theorem mvtl_range_reversed_no_failure (k sel sPart ePart sub value : String)
    (items : List Json) (N M : Int)
    (h1 : hasPrefixStr "#" sel = true) (h2 : sel ≠ "#")
    (h3 : hasSub sel "-" = true) (h4 : splitChar '-' sel = [sPart, ePart])
    (h5 : parseGoInt (trimHash sPart) = some N)
    (h6 : parseGoInt (trimHash ePart) = some M)
    (h7 : 0 ≤ N) (h8 : M < N) :
    mvtl [(k, Json.arr items)] [k, sel, sub] value = [(k, Json.arr items)] := by
  rw [mvtl_cons_arr k items [] [k, sel, sub] value rfl (by simp)]
  have hempty : rangeInts N M = [] := by
    unfold rangeInts
    have : (M + 1 - N).toNat = 0 := by omega
    rw [this]
    rfl
  have hidx : mvtlCorrectIndexes [k, sel, sub] items.length = some (rangeInts N M) := by
    simp only [mvtlCorrectIndexes, h1, if_pos, h2, if_neg, h3, h4, h5, h6]
    simp [not_lt.mpr h7, not_lt]
  simp only [hidx, hempty, mvtlLoop_empty_idxs]
  rfl

/-- Claim C9: `handleSubStandard` translates at most the first 52 items
(indices 0–51) of the input list: the loop breaks right after scheduling
index 51, and every later item is silently omitted. -/
theorem subStandard_translates_at_most_52 (items : List Json) :
    subStandardScheduled items 0 = items.take 52 := by
  suffices h : ∀ (l : List Json) (c : Nat), c ≤ skipAfterCount + 1 →
      subStandardScheduled l c = l.take (skipAfterCount + 2 - c) by
    simpa [skipAfterCount] using h items 0 (by simp [skipAfterCount])
  intro l
  induction l with
  | nil => intro c _; simp [subStandardScheduled]
  | cons x rest ih =>
      intro c hc
      by_cases h : c > skipAfterCount
      · have hcn : c = skipAfterCount + 1 := by omega
        simp [subStandardScheduled, h, hcn]
      · have h1 : c + 1 ≤ skipAfterCount + 1 := by omega
        have : skipAfterCount + 2 - c = (skipAfterCount + 2 - (c + 1)) + 1 := by omega
        simp [subStandardScheduled, h, ih (c + 1) h1, this]

theorem gptPollLoop_congr (poll poll' : Nat → Option String)
    (h : ∀ n, n ≤ maxIter → poll n = poll' n) :
    ∀ fuel cnt, cnt ≤ maxIter → maxIter - cnt ≤ fuel →
      gptPollLoop poll cnt cnt = gptPollLoop poll' cnt cnt := by
  intro fuel
  induction fuel with
  | zero =>
      intro cnt h1 h2
      have hc : cnt = maxIter := by omega
      conv_lhs => rw [gptPollLoop]
      conv_rhs => rw [gptPollLoop]
      rw [h cnt h1]
      cases hp : poll' cnt with
      | some s => simp [hp]
      | none => simp [hp, hc, maxIter]
  | succ f ih =>
      intro cnt h1 h2
      conv_lhs => rw [gptPollLoop]
      conv_rhs => rw [gptPollLoop]
      rw [h cnt h1]
      cases hp : poll' cnt with
      | some s => simp [hp]
      | none =>
          simp only [hp]
          by_cases hge : cnt ≥ maxIter
          · simp [hge]
          · simp only [hge, dite_false]
            exact ih (cnt + 1) (by omega) (by omega)

theorem gptPollLoop_constNone :
    ∀ fuel cnt, cnt ≤ maxIter → maxIter - cnt ≤ fuel →
      gptPollLoop (fun _ => none) cnt cnt = none := by
  intro fuel
  induction fuel with
  | zero =>
      intro cnt h1 h2
      have hc : cnt = maxIter := by omega
      rw [gptPollLoop]
      subst hc
      simp [maxIter]

  | succ f ih =>
      intro cnt h1 h2
      rw [gptPollLoop]
      by_cases hge : cnt ≥ maxIter
      · simp [hge]
      · simp only [hge, dite_false]
        exact ih (cnt + 1) (by omega) (by omega)

/-- Claim C6: the single-flight coordination of `GptTranslate`.
(i) A caller that finds the generation lock present and never sees the
result key within the bounded poll attempts falls through and performs the
generation itself instead of failing.  (ii) The whole coordination consults
the result key a bounded number of times: its outcome depends only on the
first `maxIter + 2` reads.  (iii) A caller that finds the lock absent writes
the lock, and (iv) proceeds to generate when no result is cached. -/
theorem gpt_single_flight_coordination :
    (∀ (poll : Nat → Option String), (∀ n, n ≤ maxIter + 1 → poll n = none) →
      gptCoordinate true poll = (.generated, false)) ∧
    (∀ (lock : Bool) (poll poll' : Nat → Option String),
      (∀ n, n ≤ maxIter + 1 → poll n = poll' n) →
      gptCoordinate lock poll = gptCoordinate lock poll') ∧
    (∀ (poll : Nat → Option String), (gptCoordinate false poll).2 = true) ∧
    (∀ (poll : Nat → Option String), poll 0 = none →
      gptCoordinate false poll = (.generated, true)) := by
  refine ⟨fun poll h => ?_, fun lock poll poll' h => ?_, fun poll => ?_,
    fun poll h => ?_⟩
  · have hloop : gptPollLoop poll 0 0 = none := by
      rw [gptPollLoop_congr poll (fun _ => none)
        (fun n hn => h n (by omega)) maxIter 0 (by omega) (by omega)]
      exact gptPollLoop_constNone maxIter 0 (by omega) (by omega)
    rw [gptCoordinate, if_pos rfl, hloop, h (maxIter + 1) (by omega)]
  · cases lock with
    | true =>
        rw [gptCoordinate, gptCoordinate, if_pos rfl, if_pos rfl]
        rw [gptPollLoop_congr poll poll' (fun n hn => h n (by omega))
          maxIter 0 (by omega) (by omega)]
        cases gptPollLoop poll' 0 0 with
        | some s => rfl
        | none => rw [h (maxIter + 1) (by omega)]
    | false =>
        rw [gptCoordinate, gptCoordinate, if_neg (by simp), if_neg (by simp),
          h 0 (by omega)]
  · rw [gptCoordinate, if_neg (by simp)]
    cases poll 0 <;> simp
  · rw [gptCoordinate, if_neg (by simp), h]

/-- Witness for C6: with an empty result cache, a lock-holding-observed
caller generates (no failure), and a lock-absent caller writes the lock and
generates. -/
theorem gpt_single_flight_coordination_witness :
    gptCoordinate true (fun _ => none) = (.generated, false) ∧
    (gptCoordinate false (fun _ => none)).2 = true ∧
    gptCoordinate false (fun _ => none) = (.generated, true) := by
  refine ⟨gpt_single_flight_coordination.1 (fun _ => none) (fun n _ => rfl),
    gpt_single_flight_coordination.2.2.1 (fun _ => none),
    gpt_single_flight_coordination.2.2.2 (fun _ => none) rfl⟩

/-! ### Reverse inference: result keys (C3) -/

theorem strMapSet_keys (m : List (String × String)) (k v : String)
    (h : k ∈ m.map Prod.fst) : (strMapSet m k v).map Prod.fst = m.map Prod.fst := by
  unfold strMapSet
  rw [if_pos (by simpa using h)]
  rw [List.map_map]
  apply List.map_congr_left
  intro p _
  by_cases hp : p.1 = k <;> simp [hp]

theorem findMatchingString_mem (s : String) (tgt : List (String × Json))
    (h : findMatchingString s tgt ≠ "") :
    findMatchingString s tgt ∈ tgt.map Prod.fst := by
  induction tgt with
  | nil => simp [findMatchingString] at h
  | cons p rest ih =>
      obtain ⟨k, v⟩ := p
      cases v with
      | str sv =>
          rw [findMatchingString] at h ⊢
          by_cases hv : sv = s
          · simp [hv]
          · simp only [hv, if_neg, if_false] at h ⊢
            exact List.mem_cons_of_mem _ (ih h)
      | null =>
          rw [findMatchingString] at h ⊢
          exact List.mem_cons_of_mem _ (ih h)
      | bool b =>
          rw [findMatchingString] at h ⊢
          exact List.mem_cons_of_mem _ (ih h)
      | num n =>
          rw [findMatchingString] at h ⊢
          exact List.mem_cons_of_mem _ (ih h)
      | arr xs =>
          rw [findMatchingString] at h ⊢
          exact List.mem_cons_of_mem _ (ih h)
      | obj fs =>
          rw [findMatchingString] at h ⊢
          exact List.mem_cons_of_mem _ (ih h)

theorem rtMerge_keys (key : String) (out : List (String × String))
    (T : List String) :
    ∀ nm, nm.map Prod.fst = T → (∀ k ∈ out.map Prod.fst, k ∈ T) →
      (rtMerge key nm out).map Prod.fst = T := by
  induction out with
  | nil => intro nm h _; simpa [rtMerge] using h
  | cons p rest ih =>
      obtain ⟨k, v⟩ := p
      intro nm h hsub
      rw [rtMerge]
      by_cases hv : v = ""
      · rw [if_pos hv]
        exact ih nm h (fun k' hk' => hsub k' (by simp [hk']))
      · rw [if_neg hv]
        refine ih _ ?_ (fun k' hk' => hsub k' (by simp [hk']))
        rw [← h] at hsub ⊢
        exact strMapSet_keys nm k _ (hsub k (by simp))

theorem rtMergeIdx_keys (key : String) (i : Nat) (out : List (String × String))
    (T : List String) :
    ∀ nm, nm.map Prod.fst = T → (∀ k ∈ out.map Prod.fst, k ∈ T) →
      (rtMergeIdx key i nm out).map Prod.fst = T := by
  induction out with
  | nil => intro nm h _; simpa [rtMergeIdx] using h
  | cons p rest ih =>
      obtain ⟨k, v⟩ := p
      intro nm h hsub
      rw [rtMergeIdx]
      by_cases hv : v = ""
      · rw [if_pos hv]
        exact ih nm h (fun k' hk' => hsub k' (by simp [hk']))
      · rw [if_neg hv]
        refine ih _ ?_ (fun k' hk' => hsub k' (by simp [hk']))
        rw [← h] at hsub ⊢
        exact strMapSet_keys nm k _ (hsub k (by simp))

mutual

/-- `rtLoop` only updates keys already present: the key set of the result
map is the key set it starts from. -/
theorem rtLoop_keys (decode : String → Option (List (String × Json))) :
    ∀ (fuel : Nat) (rem tgt : List (String × Json)) (nm : List (String × String)),
      nm.map Prod.fst = tgt.map Prod.fst →
      (rtLoop decode fuel rem tgt nm).map Prod.fst = tgt.map Prod.fst
  | fuel, [], tgt, nm => fun h => by rw [rtLoop]; exact h
  | 0, (key, value) :: rest, tgt, nm => fun h => by
      rw [rtLoop]
      cases hv1 : rtAdjustValue decode value with
      | str val =>
          by_cases hm : findMatchingString val tgt = ""
          · simp only [hm, if_pos]
            exact rtLoop_keys decode 0 rest tgt nm h
          · simp only [hm, if_neg, if_false]
            refine rtLoop_keys decode 0 rest tgt _ ?_
            rw [← h]
            exact strMapSet_keys nm _ key (h ▸ findMatchingString_mem val tgt hm)
      | obj val => exact rtLoop_keys decode 0 rest tgt nm h
      | arr val => exact rtLoop_keys decode 0 rest tgt nm h
      | null => exact rtLoop_keys decode 0 rest tgt nm h
      | bool b => exact rtLoop_keys decode 0 rest tgt nm h
      | num n => exact rtLoop_keys decode 0 rest tgt nm h
  | fuel' + 1, (key, value) :: rest, tgt, nm => fun h => by
      rw [rtLoop]
      cases hv1 : rtAdjustValue decode value with
      | str val =>
          by_cases hm : findMatchingString val tgt = ""
          · simp only [hm, if_pos]
            exact rtLoop_keys decode (fuel' + 1) rest tgt nm h
          · simp only [hm, if_neg, if_false]
            refine rtLoop_keys decode (fuel' + 1) rest tgt _ ?_
            rw [← h]
            exact strMapSet_keys nm _ key (h ▸ findMatchingString_mem val tgt hm)
      | obj val =>
          refine rtLoop_keys decode (fuel' + 1) rest tgt _ ?_
          refine rtMerge_keys key _ _ nm h ?_
          intro k' hk'
          rw [rtLoop_keys decode fuel' val tgt (rtInit tgt) (by simp [rtInit])] at hk'
          exact hk'
      | arr val =>
          refine rtLoop_keys decode (fuel' + 1) rest tgt _ ?_
          exact rtListLoop_keys decode fuel' val tgt nm key 0 h
      | null => exact rtLoop_keys decode (fuel' + 1) rest tgt nm h
      | bool b => exact rtLoop_keys decode (fuel' + 1) rest tgt nm h
      | num n => exact rtLoop_keys decode (fuel' + 1) rest tgt nm h
  termination_by fuel rem tgt nm => (fuel, sizeOf rem)

theorem rtListLoop_keys (decode : String → Option (List (String × Json))) :
    ∀ (fuel : Nat) (items : List Json) (tgt : List (String × Json))
      (nm : List (String × String)) (key : String) (i : Nat),
      nm.map Prod.fst = tgt.map Prod.fst →
      (rtListLoop decode fuel items tgt nm key i).map Prod.fst = tgt.map Prod.fst
  | fuel, [], tgt, nm, key, i => fun h => by rw [rtListLoop]; exact h
  | fuel, v :: moreItems, tgt, nm, key, i => fun h => by
      cases v with
      | str sv =>
          rw [rtListLoop]
          by_cases hsv : sv = ""
          · simp only [hsv, if_pos]
            exact rtListLoop_keys decode fuel moreItems tgt nm key (i + 1) h
          · simp only [hsv, if_neg, if_false]
            by_cases hm : findMatchingString sv tgt = ""
            · simp only [hm, if_pos]
              exact rtListLoop_keys decode fuel moreItems tgt nm key (i + 1) h
            · simp only [hm, if_neg, if_false]
              refine rtListLoop_keys decode fuel moreItems tgt _ key (i + 1) ?_
              rw [← h]
              exact strMapSet_keys nm _ _ (h ▸ findMatchingString_mem sv tgt hm)
      | obj mv =>
          rw [rtListLoop]
          refine rtListLoop_keys decode fuel moreItems tgt _ key (i + 1) ?_
          refine rtMergeIdx_keys key i _ _ nm h ?_
          intro k' hk'
          rw [rtLoop_keys decode fuel mv tgt (rtInit tgt) (by simp [rtInit])] at hk'
          exact hk'
      | null =>
          rw [rtListLoop]
          exact rtListLoop_keys decode fuel moreItems tgt nm key (i + 1) h
      | bool b =>
          rw [rtListLoop]
          exact rtListLoop_keys decode fuel moreItems tgt nm key (i + 1) h
      | num n =>
          rw [rtListLoop]
          exact rtListLoop_keys decode fuel moreItems tgt nm key (i + 1) h
      | arr xs =>
          rw [rtListLoop]
          exact rtListLoop_keys decode fuel moreItems tgt nm key (i + 1) h
  termination_by fuel items tgt nm key i => (fuel, sizeOf items)

end

/-- Claim C3: every key of the target-keys map appears as a key of the
inference result — initialized to `""` and never removed, only overwritten
with discovered paths; no key is ever omitted.  In particular an empty
source leaves every key bound to `""`. -/
theorem reverse_translate_preserves_target_keys :
    (∀ (decode : String → Option (List (String × Json))) (fuel : Nat)
      (src tgt : List (String × Json)),
      (reverseTranslate decode fuel src tgt).map Prod.fst = tgt.map Prod.fst) ∧
    (∀ (decode : String → Option (List (String × Json))) (fuel : Nat)
      (tgt : List (String × Json)),
      reverseTranslate decode fuel [] tgt = tgt.map (fun p => (p.1, ""))) := by
  constructor
  · intro decode fuel src tgt
    exact rtLoop_keys decode fuel src tgt (rtInit tgt) (by simp [rtInit])
  · intro decode fuel tgt
    rw [reverseTranslate, rtLoop, rtInit]

/-- Claim C2: two source documents that differ only in scalar leaf values
and in the presence of digit-suffixed object keys (i.e. with equal
`eraseShape` erasures) produce the identical shape key token — and hence the
identical `md5(keyToken)` cache key in `Translate`, which is a function of
the token. -/
theorem token_stable_under_leaf_values_and_digit_keys (d1 d2 : Json)
    (h : eraseShape d1 = eraseShape d2) : jsonToken d1 1 = jsonToken d2 1 := by
  have h1 : truncShape d1 1 = truncShape d2 1 := by
    rw [← truncShape_erase d1 1, ← truncShape_erase d2 1, h]
  calc jsonToken d1 1 = jsonToken (truncShape d1 1) 1 := (jsonToken_trunc d1).symm
    _ = jsonToken (truncShape d2 1) 1 := by rw [h1]
    _ = jsonToken d2 1 := jsonToken_trunc d2

/-- Witness for C2: `{"a": "x", "b1": 5, "l": ["y"]}` and
`{"a": true, "l": [42]}` differ only in leaf values and the digit-suffixed
key `b1`, and get the same token. -/
theorem token_stable_under_leaf_values_and_digit_keys_witness :
    eraseShape (.obj [("a", .str "x"), ("b1", .num 5), ("l", .arr [.str "y"])]) =
      eraseShape (.obj [("a", .bool true), ("l", .arr [.num 42])]) ∧
    jsonToken (.obj [("a", .str "x"), ("b1", .num 5), ("l", .arr [.str "y"])]) 1 =
      jsonToken (.obj [("a", .bool true), ("l", .arr [.num 42])]) 1 := by
  have h : eraseShape (.obj [("a", .str "x"), ("b1", .num 5), ("l", .arr [.str "y"])]) =
      eraseShape (.obj [("a", .bool true), ("l", .arr [.num 42])]) := by
    simp only [eraseShape, eraseFields, eraseItems, endsDigit]
    norm_num
  exact ⟨h, token_stable_under_leaf_values_and_digit_keys _ _ h⟩

/-- Claim C10: the shape key token is built from object key names only —
list values contribute nothing to it (the recursive token of list items is
discarded), nested-object key names are appended only while the recursion
depth is below 3, and consequently any two documents with the same
token-relevant truncation (same key structure outside lists, up to token
depth 3, digit-suffixed keys ignored) share the token and hence the cache
key. -/
theorem token_ignores_list_keys_and_deep_structure :
    (∀ (xs : List Json) (d : Int), tokenChildExt (.arr xs) d = "") ∧
    (∀ (gs : List (String × Json)) (d : Int), 3 ≤ d → tokenChildExt (.obj gs) d = "") ∧
    (∀ d1 d2 : Json, truncShape d1 1 = truncShape d2 1 →
      jsonToken d1 1 = jsonToken d2 1) := by
  refine ⟨fun xs d => by simp [tokenChildExt], fun gs d hd => ?_, fun d1 d2 h => ?_⟩
  · rw [tokenChildExt]
    simp [show ¬ (d < 3) by omega]
  · calc jsonToken d1 1 = jsonToken (truncShape d1 1) 1 := (jsonToken_trunc d1).symm
      _ = jsonToken (truncShape d2 1) 1 := by rw [h]
      _ = jsonToken d2 1 := jsonToken_trunc d2

/-- Witness for C10: `{"a": [{"p": null}], "b": {"c": {"d": {"e": null}}}}`
and `{"a": [{"q": null}, {"r": null}], "b": {"c": {"d": {"z": {"w": null}}}}}`
differ only in the keys of objects inside the list `a` and in structure
deeper than three levels under `b`, and get the same token. -/
theorem token_ignores_list_keys_and_deep_structure_witness :
    tokenChildExt (.obj [("x", Json.null)]) 3 = "" ∧
    truncShape (.obj [("a", .arr [.obj [("p", Json.null)]]),
        ("b", .obj [("c", .obj [("d", .obj [("e", Json.null)])])])]) 1 =
      truncShape (.obj [("a", .arr [.obj [("q", Json.null)], .obj [("r", Json.null)]]),
        ("b", .obj [("c", .obj [("d", .obj [("z", .obj [("w", Json.null)])])])])]) 1 ∧
    jsonToken (.obj [("a", .arr [.obj [("p", Json.null)]]),
        ("b", .obj [("c", .obj [("d", .obj [("e", Json.null)])])])]) 1 =
      jsonToken (.obj [("a", .arr [.obj [("q", Json.null)], .obj [("r", Json.null)]]),
        ("b", .obj [("c", .obj [("d", .obj [("z", .obj [("w", Json.null)])])])])]) 1 := by
  have h : truncShape (.obj [("a", .arr [.obj [("p", Json.null)]]),
      ("b", .obj [("c", .obj [("d", .obj [("e", Json.null)])])])]) 1 =
      truncShape (.obj [("a", .arr [.obj [("q", Json.null)], .obj [("r", Json.null)]]),
        ("b", .obj [("c", .obj [("d", .obj [("z", .obj [("w", Json.null)])])])])]) 1 := by
    simp only [truncShape, truncFields, endsDigit]
    norm_num
  exact ⟨token_ignores_list_keys_and_deep_structure.1 [Json.null] 3, h,
    token_ignores_list_keys_and_deep_structure.2.2 _ _ h⟩

/-! ### Forward application: per-field tolerance and reference typing (C4, C7)

`runJsonTranslation` walks the template entry by entry, so no entry can
abort the loop; what a *string* entry produces depends on whether it
matches an input key directly (first loop — native value), contains a dot
(path resolution — always a string, `""` on failure), or neither (literal
copy). -/

theorem lookup_replaceList (m : List (String × Json)) (k k' : String) (v : Json)
    (h : k' ≠ k) :
    Json.lookup k' (m.map fun p => if p.1 = k then (k, v) else p) = Json.lookup k' m := by
  induction m with
  | nil => rfl
  | cons p rest ih =>
      obtain ⟨k1, v1⟩ := p
      by_cases h1 : k1 = k
      · subst h1
        simp only [List.map_cons]
        rw [if_pos trivial]
        simp only [Json.lookup]
        rw [if_neg (Ne.symm h), if_neg (Ne.symm h)]
        exact ih
      · simp only [List.map_cons]
        rw [if_neg h1]
        simp only [Json.lookup]
        rw [ih]

theorem lookup_append_single (m : List (String × Json)) (k k' : String) (v : Json)
    (h : k' ≠ k) :
    Json.lookup k' (m ++ [(k, v)]) = Json.lookup k' m := by
  induction m with
  | nil =>
      simp only [List.nil_append, Json.lookup]
      rw [if_neg (Ne.symm h)]
  | cons p rest ih =>
      obtain ⟨k1, v1⟩ := p
      simp only [List.cons_append, Json.lookup, List.append_eq]
      rw [ih]

/-- A `mapSet` at key `k` leaves every other key's binding unchanged. -/
theorem lookup_mapSet_ne (m : List (String × Json)) (k k' : String) (v : Json)
    (h : k' ≠ k) : Json.lookup k' (Json.mapSet m k v) = Json.lookup k' m := by
  unfold Json.mapSet
  by_cases hc : (m.map Prod.fst).contains k
  · rw [if_pos hc]; exact lookup_replaceList m k k' v h
  · rw [if_neg hc]; exact lookup_append_single m k k' v h

/-- A `mapSet` at key `k` makes `k` read back the written value. -/
theorem lookup_mapSet_self (m : List (String × Json)) (k : String) (v : Json) :
    Json.lookup k (Json.mapSet m k v) = some v := by
  unfold Json.mapSet
  by_cases hc : (m.map Prod.fst).contains k
  · rw [if_pos hc]
    have hk : k ∈ m.map Prod.fst := by simpa using hc
    clear hc
    induction m with
    | nil => simp at hk
    | cons p rest ih =>
        obtain ⟨k1, v1⟩ := p
        by_cases h1 : k1 = k
        · subst h1
          simp only [List.map_cons]
          rw [if_pos trivial]
          simp only [Json.lookup]
          rw [if_pos trivial]
        · have hk' : k ∈ rest.map Prod.fst := by
            rcases List.mem_cons.1 hk with h | h
            · exact absurd h.symm h1
            · exact h
          simp only [List.map_cons]
          rw [if_neg h1]
          simp only [Json.lookup]
          rw [if_neg h1]
          exact ih hk'
  · rw [if_neg hc]
    have hk : k ∉ m.map Prod.fst := by simpa using hc
    clear hc
    induction m with
    | nil =>
        simp only [List.nil_append, Json.lookup]
        rw [if_pos trivial]
    | cons p rest ih =>
        obtain ⟨k1, v1⟩ := p
        have h1 : k1 ≠ k := by
          intro h; exact hk (by simp [h])
        have hk' : k ∉ rest.map Prod.fst := fun h => hk (by simp [h])
        simp only [List.cons_append, Json.lookup, List.append_eq]
        rw [if_neg h1]
        exact ih hk'

/-- `mapSet` can only grow the key set: the written key and every old key
are present afterwards. -/
theorem mapSet_mem_keys (m : List (String × Json)) (k : String) (v : Json)
    (k' : String) (h : k' = k ∨ k' ∈ m.map Prod.fst) :
    k' ∈ (Json.mapSet m k v).map Prod.fst := by
  unfold Json.mapSet
  by_cases hc : (m.map Prod.fst).contains k
  · rw [if_pos hc]
    have hk : k ∈ m.map Prod.fst := by simpa using hc
    rw [List.map_map]
    rcases h with rfl | h
    · obtain ⟨p, hp, hp1⟩ := List.mem_map.1 hk
      refine List.mem_map.2 ⟨p, hp, ?_⟩
      show ((if p.1 = k' then (k', v) else p) : String × Json).1 = k'
      rw [if_pos hp1]
    · obtain ⟨p, hp, hp1⟩ := List.mem_map.1 h
      refine List.mem_map.2 ⟨p, hp, ?_⟩
      show ((if p.1 = k then (k, v) else p) : String × Json).1 = k'
      by_cases h2 : p.1 = k
      · rw [if_pos h2]
        rw [← hp1, h2]
      · rw [if_neg h2]
        exact hp1
  · rw [if_neg hc]
    rw [List.map_append]
    rcases h with rfl | h
    · simp
    · simp [h]

/-- The template loop never drops a key: every template key and every
already-accumulated key appears in the output. -/
theorem runJTAux_keys_covered (pi0 : List (String × Json)) (hFuel : Nat) :
    ∀ (tpl pi acc : List (String × Json)) (k : String),
      k ∈ tpl.map Prod.fst ∨ k ∈ acc.map Prod.fst →
      k ∈ (runJTAux pi0 hFuel tpl pi acc).map Prod.fst := by
  intro tpl
  induction tpl with
  | nil =>
      intro pi acc k h
      rw [runJTAux]
      rcases h with h | h
      · simp at h
      · exact h
  | cons hd more ih =>
      obtain ⟨tk, tv⟩ := hd
      intro pi acc k h
      have h' : k = tk ∨ k ∈ more.map Prod.fst ∨ k ∈ acc.map Prod.fst := by
        rcases h with h | h
        · rw [List.map_cons] at h
          rcases List.mem_cons.1 h with h | h
          · exact Or.inl h
          · exact Or.inr (Or.inl h)
        · exact Or.inr (Or.inr h)
      have step : ∀ (pi' : List (String × Json)) (X : Json),
          k ∈ (runJTAux pi0 hFuel more pi' (Json.mapSet acc tk X)).map Prod.fst := by
        intro pi' X
        refine ih pi' _ k ?_
        rcases h' with rfl | h' | h'
        · exact Or.inr (mapSet_mem_keys _ _ _ _ (Or.inl rfl))
        · exact Or.inl h'
        · exact Or.inr (mapSet_mem_keys _ _ _ _ (Or.inr h'))
      cases tv with
      | str tvs =>
          cases hl : Json.lookup tvs pi with
          | some v =>
              rw [runJTAux.eq_2, hl]
              exact step _ _
          | none =>
              simp only [runJTAux.eq_2, hl]
              split
              · split
                · exact step _ _
                · exact step _ _
              · exact step _ _
      | num n =>
          rw [runJTAux.eq_3]
          exact step _ _
      | arr val =>
          simp only [runJTAux.eq_4]
          split
          · exact step _ _
          · exact step _ _
      | obj val =>
          rw [runJTAux.eq_5, ← apply_ite (Json.mapSet acc tk)]
          exact step _ _
      | null =>
          rw [runJTAux.eq_6 pi0 hFuel pi acc tk Json.null more
            (fun _ h => nomatch h) (fun _ h => nomatch h)
            (fun _ h => nomatch h) (fun _ h => nomatch h)]
          exact step _ _
      | bool b =>
          rw [runJTAux.eq_6 pi0 hFuel pi acc tk (Json.bool b) more
            (fun _ h => nomatch h) (fun _ h => nomatch h)
            (fun _ h => nomatch h) (fun _ h => nomatch h)]
          exact step _ _

/-- A key that is not a template key keeps whatever binding the
accumulator gave it: later entries translate independently of it. -/
theorem runJTAux_lookup_not_mem (pi0 : List (String × Json)) (hFuel : Nat) :
    ∀ (tpl pi acc : List (String × Json)) (k : String),
      k ∉ tpl.map Prod.fst →
      Json.lookup k (runJTAux pi0 hFuel tpl pi acc) = Json.lookup k acc := by
  intro tpl
  induction tpl with
  | nil =>
      intro pi acc k h
      rw [runJTAux]
  | cons hd more ih =>
      obtain ⟨tk, tv⟩ := hd
      intro pi acc k h
      have hk1 : k ≠ tk := by
        intro hq; exact h (by simp [hq])
      have hk2 : k ∉ more.map Prod.fst := by
        intro hq; exact h (by simp [hq])
      have step : ∀ (pi' : List (String × Json)) (X : Json),
          Json.lookup k (runJTAux pi0 hFuel more pi' (Json.mapSet acc tk X)) =
            Json.lookup k acc := by
        intro pi' X
        rw [ih pi' _ k hk2]
        exact lookup_mapSet_ne acc tk k X hk1
      cases tv with
      | str tvs =>
          cases hl : Json.lookup tvs pi with
          | some v =>
              rw [runJTAux.eq_2, hl]
              exact step _ _
          | none =>
              simp only [runJTAux.eq_2, hl]
              split
              · split
                · exact step _ _
                · exact step _ _
              · exact step _ _
      | num n =>
          rw [runJTAux.eq_3]
          exact step _ _
      | arr val =>
          simp only [runJTAux.eq_4]
          split
          · exact step _ _
          · exact step _ _
      | obj val =>
          rw [runJTAux.eq_5, ← apply_ite (Json.mapSet acc tk)]
          exact step _ _
      | null =>
          rw [runJTAux.eq_6 pi0 hFuel pi acc tk Json.null more
            (fun _ h => nomatch h) (fun _ h => nomatch h)
            (fun _ h => nomatch h) (fun _ h => nomatch h)]
          exact step _ _
      | bool b =>
          rw [runJTAux.eq_6 pi0 hFuel pi acc tk (Json.bool b) more
            (fun _ h => nomatch h) (fun _ h => nomatch h)
            (fun _ h => nomatch h) (fun _ h => nomatch h)]
          exact step _ _

/-- Counterexample to claim C4 as stated: a *dotted* template value that
does not resolve is replaced by the empty string, not left in place —
`{"a": "x.y"}` against input `{"z": 1}` yields `{"a": ""}`, and `"x.y"`
is not `""`. -/
theorem unresolved_dotted_path_drops_literal :
    runJsonTranslation 1 [("z", Json.num 1)] [("a", Json.str "x.y")] false
      = [("a", Json.str "")] ∧ ("x.y" : String) ≠ "" := by
  refine ⟨?_, by decide⟩
  have hrf : recurseFindKey [("z", Json.num 1)] ["x", "y"] 0 = none := by
    simp [recurseFindKey]
  simp [runJsonTranslation, runJTAux, Json.lookup, Json.mapSet, recurseFindKeyD,
    hrf, (show splitDots "x.y" = ["x", "y"] from by decide),
    (show stripQuotes (replaceAll "x.y" "[]" ".#") = "x.y" from by
      simp [stripQuotes, replaceAll, replaceAllL, List.isPrefixOf]),
    (show hasSub "x.y" "." = true from by decide),
    (show hasSub "x.y" "$" = false from by decide)]

/-- Claim C4 (amended): translation is per-field and never aborts — every
template key appears in the output — and an unresolved template value is
left in place *only when it contains no dot*: a dotted, `$`-free value
whose path does not resolve produces the empty string at the target key,
not the literal. -/
theorem forward_unresolved_paths_tolerated :
    (∀ (hFuel : Nat) (pi tpl : List (String × Json)) (ko : Bool) (k : String),
      k ∈ tpl.map Prod.fst →
      k ∈ (runJsonTranslation hFuel pi tpl ko).map Prod.fst) ∧
    (∀ (hFuel : Nat) (pi : List (String × Json)) (tk tvs : String)
      (more : List (String × Json)),
      Json.lookup tvs pi = none → hasSub tvs "." = false →
      tk ∉ more.map Prod.fst →
      Json.lookup tk (runJsonTranslation hFuel pi ((tk, .str tvs) :: more) false) =
        some (.str tvs)) ∧
    (∀ (hFuel : Nat) (pi : List (String × Json)) (tk tvs : String)
      (more : List (String × Json)),
      Json.lookup tvs pi = none → hasSub tvs "." = true → hasSub tvs "$" = false →
      recurseFindKey pi (splitDots (stripQuotes (replaceAll tvs "[]" ".#"))) 0 = none →
      tk ∉ more.map Prod.fst →
      Json.lookup tk (runJsonTranslation hFuel pi ((tk, .str tvs) :: more) false) =
        some (.str "")) := by
  refine ⟨?_, ?_, ?_⟩
  · intro hFuel pi tpl ko k hk
    unfold runJsonTranslation
    exact runJTAux_keys_covered pi hFuel tpl pi _ k (Or.inl hk)
  · intro hFuel pi tk tvs more hl hd hnm
    unfold runJsonTranslation
    simp only [Bool.false_eq_true, if_false, runJTAux.eq_2, hl, hd]
    rw [runJTAux_lookup_not_mem pi hFuel more pi _ tk hnm]
    exact lookup_mapSet_self [] tk (Json.str tvs)
  · intro hFuel pi tk tvs more hl hd hs hrf hnm
    unfold runJsonTranslation
    simp only [Bool.false_eq_true, if_false, runJTAux.eq_2, hl, hd, hs,
      eq_self_iff_true, if_true, recurseFindKeyD, hrf, Option.getD]
    rw [runJTAux_lookup_not_mem pi hFuel more pi _ tk hnm]
    exact lookup_mapSet_self [] tk (Json.str "")

/-- Witness for the amended C4 theorem: concrete runs of all three parts —
key coverage, a dotless unresolved literal kept, a dotted unresolved path
yielding `""`. -/
theorem forward_unresolved_paths_tolerated_witness :
    "a" ∈ (runJsonTranslation 1 [("z", Json.num 1)]
        [("a", Json.str "q"), ("b", Json.num 2)] false).map Prod.fst ∧
    Json.lookup "a" (runJsonTranslation 1 [("z", Json.num 1)]
        [("a", Json.str "q")] false) = some (Json.str "q") ∧
    Json.lookup "a" (runJsonTranslation 1 [("z", Json.num 1)]
        [("a", Json.str "x.y")] false) = some (Json.str "") := by
  refine ⟨?_, ?_, ?_⟩
  · exact forward_unresolved_paths_tolerated.1 1 [("z", Json.num 1)]
      [("a", Json.str "q"), ("b", Json.num 2)] false "a" (by simp)
  · exact forward_unresolved_paths_tolerated.2.1 1 [("z", Json.num 1)] "a" "q" []
      (by simp [Json.lookup]) (by decide) (by simp)
  · refine forward_unresolved_paths_tolerated.2.2 1 [("z", Json.num 1)] "a" "x.y" []
      (by simp [Json.lookup]) (by decide) (by decide) ?_ (by simp)
    rw [show stripQuotes (replaceAll "x.y" "[]" ".#") = "x.y" from by
      simp [stripQuotes, replaceAll, replaceAllL, List.isPrefixOf]]
    rw [show splitDots "x.y" = ["x", "y"] from by decide]
    simp [recurseFindKey]

/-- Counterexample to claim C7 as stated: a template value that is a
single *dotted* path reference is stringified — `{"k": "a.b"}` against
`{"a": {"b": 5}}` yields the string `"5"`, though the value at that path
is the number `5`. -/
theorem single_reference_dotted_is_stringified :
    runJsonTranslation 1 [("a", Json.obj [("b", Json.num 5)])]
        [("k", Json.str "a.b")] false = [("k", Json.str "5")] ∧
    Json.lookup "b" [("b", Json.num 5)] = some (Json.num 5) ∧
    (Json.str "5" = Json.num 5 → False) := by
  refine ⟨?_, by simp [Json.lookup], fun h => nomatch h⟩
  have hrf : recurseFindKey [("a", Json.obj [("b", Json.num 5)])] ["a", "b"] 0 = some "5" := by
    simp [recurseFindKey]
    decide
  simp [runJsonTranslation, runJTAux, Json.lookup, Json.mapSet, recurseFindKeyD,
    hrf, (show splitDots "a.b" = ["a", "b"] from by decide),
    (show stripQuotes (replaceAll "a.b" "[]" ".#") = "a.b" from by
      simp [stripQuotes, replaceAll, replaceAllL, List.isPrefixOf]),
    (show hasSub "a.b" "." = true from by decide),
    (show hasSub "a.b" "$" = false from by decide)]

/-- Claim C7 (amended): a template value naming an input key *exactly*
(the first loop's direct match) outputs the resolved value in its native
type — scalar, object or array alike — but a single dotted path reference
goes through `recurseFindKey` and always outputs a *string*. -/
theorem single_reference_native_only_for_direct_match :
    (∀ (hFuel : Nat) (pi : List (String × Json)) (tk tvs : String)
      (more : List (String × Json)) (v : Json),
      Json.lookup tvs pi = some v → tk ∉ more.map Prod.fst →
      Json.lookup tk (runJsonTranslation hFuel pi ((tk, .str tvs) :: more) false) =
        some v) ∧
    (∀ (hFuel : Nat) (pi : List (String × Json)) (tk tvs r : String)
      (more : List (String × Json)),
      Json.lookup tvs pi = none → hasSub tvs "." = true → hasSub tvs "$" = false →
      recurseFindKey pi (splitDots (stripQuotes (replaceAll tvs "[]" ".#"))) 0 = some r →
      tk ∉ more.map Prod.fst →
      Json.lookup tk (runJsonTranslation hFuel pi ((tk, .str tvs) :: more) false) =
        some (.str r)) := by
  constructor
  · intro hFuel pi tk tvs more v hl hnm
    unfold runJsonTranslation
    simp only [Bool.false_eq_true, if_false, runJTAux.eq_2, hl]
    rw [runJTAux_lookup_not_mem pi hFuel more _ _ tk hnm]
    exact lookup_mapSet_self [] tk v
  · intro hFuel pi tk tvs r more hl hd hs hrf hnm
    unfold runJsonTranslation
    simp only [Bool.false_eq_true, if_false, runJTAux.eq_2, hl, hd, hs,
      eq_self_iff_true, if_true, recurseFindKeyD, hrf, Option.getD]
    rw [runJTAux_lookup_not_mem pi hFuel more pi _ tk hnm]
    exact lookup_mapSet_self [] tk (Json.str r)

/-- Witness for the amended C7 theorem: a direct key match outputs the
native object value; a dotted reference to a number outputs its string. -/
theorem single_reference_native_only_for_direct_match_witness :
    Json.lookup "k" (runJsonTranslation 1 [("a", Json.obj [("b", Json.num 5)])]
      [("k", Json.str "a")] false) = some (Json.obj [("b", Json.num 5)]) ∧
    Json.lookup "k" (runJsonTranslation 1 [("a", Json.obj [("b", Json.num 5)])]
      [("k", Json.str "a.b")] false) = some (Json.str "5") := by
  constructor
  · exact single_reference_native_only_for_direct_match.1 1 _ "k" "a" [] _
      (by simp [Json.lookup]) (by simp)
  · refine single_reference_native_only_for_direct_match.2 1 _ "k" "a.b" "5" []
      (by simp [Json.lookup]) (by decide) (by decide) ?_ (by simp)
    rw [show stripQuotes (replaceAll "a.b" "[]" ".#") = "a.b" from by
      simp [stripQuotes, replaceAll, replaceAllL, List.isPrefixOf]]
    rw [show splitDots "a.b" = ["a", "b"] from by decide]
    simp [recurseFindKey]
    decide

/-- Counterexample to claim C5 as stated: a reversed range `#N-M` with
`N > M` does *not* fail with `PathNotFound` — neither side has any error
channel for it.  `MapValueToLocation` returns the map unchanged, and
`recurseFindKey` happily returns a (here empty) string result. -/
theorem reversed_range_selector_reports_no_error :
    mvtl [("k", Json.arr [Json.str "a", Json.str "b"])] ["k", "#1-0", "s"] "v"
      = [("k", Json.arr [Json.str "a", Json.str "b"])] ∧
    recurseFindKey [("k", Json.arr ([] : List Json))] ["k", "#1-0"] 0 = some "" := by
  constructor
  · exact mvtl_range_reversed_no_failure "k" "#1-0" "#1" "0" "s" "v"
      [Json.str "a", Json.str "b"] 1 0 (by decide) (by decide) (by decide)
      (by decide) (by decide) (by decide) (by decide) (by decide)
  · simp [recurseFindKey, rfkItems, startsHash, jsonCompact, jsonCompactItems]
    decide

/-- Claim C5 (amended): `#` selects exactly `len(list)` items; an in-scope
`#N-M` selects exactly the `M-N+1` indexes `N..M` (and `min`/`max` denote
`0`/`len-1`); but a reversed or out-of-range selector never fails —
`MapValueToLocation` silently selects nothing and returns the map
unchanged, and the forward `#` expansion returns one result per resolving
item with no error channel. -/
theorem list_selector_counts :
    (∀ (k sub value : String) (items : List Json),
      mvtl [(k, Json.arr items)] [k, "#", sub] value =
        [(k, Json.arr (items.map (mvtlItemUpd [sub] value)))] ∧
      (items.map (mvtlItemUpd [sub] value)).length = items.length) ∧
    (∀ (k sel sPart ePart sub value : String) (items : List Json) (N M : Int),
      hasPrefixStr "#" sel = true → sel ≠ "#" → hasSub sel "-" = true →
      splitChar '-' sel = [sPart, ePart] →
      parseGoInt (trimHash sPart) = some N → parseGoInt (trimHash ePart) = some M →
      0 ≤ N → hasSub sel "#" = true → M < (items.length : Int) →
      mvtl [(k, Json.arr items)] [k, sel, sub] value =
        [(k, Json.arr (mapWithIdx
          (fun j it => if N ≤ (j : Int) ∧ (j : Int) ≤ M
            then mvtlItemUpd [sub] value it else it) items 0))] ∧
      (rangeInts N M).length = (M + 1 - N).toNat ∧
      (∀ x ∈ rangeInts N M, 0 ≤ x ∧ x < (items.length : Int))) ∧
    (∀ (k sel sPart ePart sub value : String) (items : List Json) (N M : Int),
      hasPrefixStr "#" sel = true → sel ≠ "#" → hasSub sel "-" = true →
      splitChar '-' sel = [sPart, ePart] →
      parseGoInt (trimHash sPart) = some N → parseGoInt (trimHash ePart) = some M →
      0 ≤ N → M < N →
      mvtl [(k, Json.arr items)] [k, sel, sub] value = [(k, Json.arr items)]) ∧
    (∀ (k sub : String) (len : Nat),
      mvtlCorrectIndexes [k, "#min-max", sub] len =
        some (rangeInts 0 ((len : Int) - 1))) ∧
    (∀ (segs : List String) (depth : Nat) (items : List Json),
      (∀ it ∈ items, ∃ sub r, it = Json.obj sub ∧
        recurseFindKey sub segs (depth + 1) = some r) →
      (rfkItems items segs depth).length = items.length) := by
  refine ⟨?_, ?_, ?_, ?_, ?_⟩
  · intro k sub value items
    exact ⟨mvtl_hash_selects_all k sub value items, List.length_map _ _⟩
  · intro k sel sPart ePart sub value items N M h1 h2 h3 h4 h5 h6 h7 hsel hM
    refine ⟨mvtl_range_selects k sel sPart ePart sub value items N M
      h1 h2 h3 h4 h5 h6 h7 hsel, length_rangeInts, ?_⟩
    intro x hx
    have := mem_rangeInts.1 hx
    omega
  · intro k sel sPart ePart sub value items N M h1 h2 h3 h4 h5 h6 h7 h8
    exact mvtl_range_reversed_no_failure k sel sPart ePart sub value items N M
      h1 h2 h3 h4 h5 h6 h7 h8
  · intro k sub len
    simp [mvtlCorrectIndexes,
      (show hasPrefixStr "#" "#min-max" = true from by decide),
      (show ("#min-max" : String) ≠ "#" from by decide),
      (show hasSub "#min-max" "-" = true from by decide),
      (show splitChar '-' "#min-max" = ["#min", "max"] from by decide),
      (show trimHash "#min" = "min" from by decide),
      (show trimHash "max" = "max" from by decide),
      (show parseGoInt "min" = none from by decide),
      (show parseGoInt "max" = none from by decide)]
  · intro segs depth items h
    induction items with
    | nil => rw [rfkItems]
    | cons it more ih =>
        obtain ⟨sub, r, rfl, hr⟩ := h it (by simp)
        rw [rfkItems, hr]
        simp only [List.singleton_append, List.length_cons]
        rw [ih (fun x hx => h x (by simp [hx]))]

/-- Witness for the amended C5 theorem: concrete runs of all five parts. -/
theorem list_selector_counts_witness :
    (mvtl [("k", Json.arr [Json.str "a", Json.str "b"])] ["k", "#", "s"] "v" =
      [("k", Json.arr ([Json.str "a", Json.str "b"].map (mvtlItemUpd ["s"] "v")))] ∧
      ([Json.str "a", Json.str "b"].map (mvtlItemUpd ["s"] "v")).length =
        [Json.str "a", Json.str "b"].length) ∧
    (mvtl [("k", Json.arr [Json.str "a", Json.str "b", Json.str "c"])]
        ["k", "#0-1", "s"] "v" =
      [("k", Json.arr (mapWithIdx
        (fun j it => if (0 : Int) ≤ (j : Int) ∧ (j : Int) ≤ (1 : Int)
          then mvtlItemUpd ["s"] "v" it else it)
        [Json.str "a", Json.str "b", Json.str "c"] 0))] ∧
      (rangeInts 0 1).length = ((1 : Int) + 1 - 0).toNat ∧
      (∀ x ∈ rangeInts 0 1, 0 ≤ x ∧
        x < (([Json.str "a", Json.str "b", Json.str "c"].length : Int)))) ∧
    (mvtl [("k", Json.arr [Json.str "a", Json.str "b"])] ["k", "#1-0", "s"] "v" =
      [("k", Json.arr [Json.str "a", Json.str "b"])]) ∧
    (mvtlCorrectIndexes ["k", "#min-max", "s"] 2 =
      some (rangeInts 0 (((2 : Nat) : Int) - 1))) ∧
    ((rfkItems [Json.obj [("x", Json.str "u")]] ["x"] 0).length =
      [Json.obj [("x", Json.str "u")]].length) := by
  refine ⟨?_, ?_, ?_, ?_, ?_⟩
  · exact list_selector_counts.1 "k" "s" "v" [Json.str "a", Json.str "b"]
  · exact list_selector_counts.2.1 "k" "#0-1" "#0" "1" "s" "v"
      [Json.str "a", Json.str "b", Json.str "c"] 0 1 (by decide) (by decide)
      (by decide) (by decide) (by decide) (by decide) (by decide) (by decide)
      (by decide)
  · exact list_selector_counts.2.2.1 "k" "#1-0" "#1" "0" "s" "v"
      [Json.str "a", Json.str "b"] 1 0 (by decide) (by decide) (by decide)
      (by decide) (by decide) (by decide) (by decide) (by decide)
  · exact list_selector_counts.2.2.2.1 "k" "s" 2
  · refine list_selector_counts.2.2.2.2 ["x"] 0 [Json.obj [("x", Json.str "u")]] ?_
    intro it hit
    rcases List.mem_singleton.1 hit with rfl
    exact ⟨[("x", Json.str "u")], "u", rfl, by simp [recurseFindKey]⟩

/-! ### The list-alignment pass pads with the first item (C8) -/

/-- The padded modification list covers every payload index: its final
length is `max` of the initial length and `cnt + len(payload)`. -/
theorem hMLIFold_length :
    ∀ (lvs : List String) (ml : List Json) (fi : Json) (key : String)
      (cnt : Nat) (upd : Bool), cnt ≤ ml.length →
      (hMLIFold lvs ml fi key cnt upd).1.length = max ml.length (cnt + lvs.length) := by
  intro lvs
  induction lvs with
  | nil =>
      intro ml fi key cnt upd h
      simp only [hMLIFold, List.length_nil]
      omega
  | cons lv more ih =>
      intro ml fi key cnt upd h
      simp only [hMLIFold, List.length_cons]
      by_cases hc : cnt ≥ ml.length
      · rw [if_pos hc]
        split
        · rw [ih (ml ++ [fi]) fi key (cnt + 1) upd (by simp; omega)]
          simp
          omega
        · rw [ih ((ml ++ [fi]).set cnt _) fi key (cnt + 1) true
            (by simp [List.length_set]; omega)]
          simp [List.length_set]
          omega
      · rw [if_neg hc]
        split
        · rw [ih ml fi key (cnt + 1) upd (by omega)]
          omega
        · rw [ih (ml.set cnt _) fi key (cnt + 1) true (by simp [List.length_set]; omega)]
          simp [List.length_set]
          omega

/-- Positions before the cursor are never touched again by the
`range unmarshalledList` walk. -/
theorem hMLIFold_earlier_untouched :
    ∀ (lvs : List String) (ml : List Json) (fi : Json) (key : String)
      (cnt : Nat) (upd : Bool) (j : Nat), cnt ≤ ml.length → j < cnt →
      (hMLIFold lvs ml fi key cnt upd).1.getD j .null = ml.getD j .null := by
  intro lvs
  induction lvs with
  | nil =>
      intro ml fi key cnt upd j h1 h2
      simp only [hMLIFold]
  | cons lv more ih =>
      intro ml fi key cnt upd j h1 h2
      simp only [hMLIFold]
      by_cases hc : cnt ≥ ml.length
      · rw [if_pos hc]
        have hlen : (ml ++ [fi]).length = ml.length + 1 := by simp
        have hgd : (ml ++ [fi]).getD j .null = ml.getD j .null := by
          rw [List.getD_eq_getElem?_getD, List.getD_eq_getElem?_getD,
            List.getElem?_append, if_pos (by omega)]
        split
        · exact (ih (ml ++ [fi]) fi key (cnt + 1) upd j (by omega) (by omega)).trans hgd
        · have hset : ((ml ++ [fi]).set cnt
              (Json.obj (setNestedMap (objFieldsD ((ml ++ [fi]).getD cnt Json.null))
                key (Json.str lv)).1)).length = ml.length + 1 := by
            rw [List.length_set, hlen]
          refine (ih _ fi key (cnt + 1) true j (by omega) (by omega)).trans ?_
          rw [List.getD_eq_getElem?_getD, List.getElem?_set_ne (by omega),
            ← List.getD_eq_getElem?_getD]
          exact hgd
      · rw [if_neg hc]
        split
        · exact ih ml fi key (cnt + 1) upd j (by omega) (by omega)
        · have hset : (ml.set cnt
              (Json.obj (setNestedMap (objFieldsD (ml.getD cnt Json.null))
                key (Json.str lv)).1)).length = ml.length := by
            rw [List.length_set]
          refine (ih _ fi key (cnt + 1) true j (by omega) (by omega)).trans ?_
          rw [List.getD_eq_getElem?_getD, List.getElem?_set_ne (by omega),
            ← List.getD_eq_getElem?_getD]

/-- The position the walk pads (the first missing index) holds the first
item — either verbatim, or with the current payload entry planted into a
copy of it. -/
theorem hMLIFold_pad :
    ∀ (lv : String) (more : List String) (ml : List Json) (fi : Json)
      (key : String) (upd : Bool),
      (hMLIFold (lv :: more) ml fi key ml.length upd).1.getD ml.length .null = fi ∨
      (hMLIFold (lv :: more) ml fi key ml.length upd).1.getD ml.length .null =
        .obj (setNestedMap (objFieldsD fi) key (.str lv)).1 := by
  intro lv more ml fi key upd
  have hfi : (ml ++ [fi]).getD ml.length .null = fi := by
    rw [List.getD_eq_getElem?_getD, List.getElem?_append, if_neg (by omega)]
    simp
  simp only [hMLIFold, ge_iff_le, le_refl, if_pos, hfi]
  split
  · left
    rw [hMLIFold_earlier_untouched more (ml ++ [fi]) fi key (ml.length + 1) upd
      ml.length
      (by simp only [List.length_append, List.length_cons, List.length_nil]; omega)
      (by omega)]
    exact hfi
  · right
    rw [hMLIFold_earlier_untouched more _ fi key (ml.length + 1) true ml.length
      (by simp only [List.length_set, List.length_append, List.length_cons,
        List.length_nil]; omega)
      (by omega)]
    rw [List.getD_eq_getElem?_getD, List.getElem?_set_eq_of_lt _
      (by simp only [List.length_append, List.length_cons, List.length_nil]; omega)]
    rfl

/-- Claim C8: when payload lists are longer than the output built so far,
the alignment pass pads by reusing the *first* resolved item for the
missing positions instead of failing: the padded slot is seeded from the
first item (then normally overwritten with the payload planted into that
copy), the result covers every payload index, and a concrete two-field
run (`a` with one item, `b` with two) shows the second output object
reusing field `a` of the first. -/
theorem list_alignment_pads_with_first_item :
    (∀ (lvs : List String) (ml : List Json) (fi : Json) (key : String)
      (cnt : Nat) (upd : Bool), cnt ≤ ml.length →
      (hMLIFold lvs ml fi key cnt upd).1.length = max ml.length (cnt + lvs.length)) ∧
    (∀ (lv : String) (more : List String) (ml : List Json) (fi : Json)
      (key : String) (upd : Bool),
      (hMLIFold (lv :: more) ml fi key ml.length upd).1.getD ml.length .null = fi ∨
      (hMLIFold (lv :: more) ml fi key ml.length upd).1.getD ml.length .null =
        .obj (setNestedMap (objFieldsD fi) key (.str lv)).1) ∧
    hMLI 1 [] "p"
      [("a", Json.str "schemaless_list[\"x\"]"),
       ("b", Json.str "schemaless_list[\"y\",\"z\"]")] 0 0 =
    [Json.obj [("a", Json.str "x"), ("b", Json.str "y")],
     Json.obj [("a", Json.str "x"), ("b", Json.str "z")]] := by
  refine ⟨hMLIFold_length, hMLIFold_pad, ?_⟩
  have jc0 : jsonCompact (Json.obj [("a", Json.str "schemaless_list[\"x\"]"),
      ("b", Json.str "schemaless_list[\"y\",\"z\"]")]) =
      "\x7b\"a\":\"schemaless_list[\\\"x\\\"]\",\"b\":\"schemaless_list[\\\"y\\\",\\\"z\\\"]\"\x7d" := by
    simp only [jsonCompact, jsonCompactFields]
    decide
  have jc1 : jsonCompact (Json.obj [("a", Json.str "x"),
      ("b", Json.str "schemaless_list[\"y\",\"z\"]")]) =
      "\x7b\"a\":\"x\",\"b\":\"schemaless_list[\\\"y\\\",\\\"z\\\"]\"\x7d" := by
    simp only [jsonCompact, jsonCompactFields]
    decide
  simp [hMLI, hMLIInit, hMLILoop, hMLIFold, hMLISub, hMLITiLoop, objFieldsD,
    setNestedMap, snmBuild, deepMerge, dmStep, copyMap, Json.lookup, Json.mapSet,
    afterFirstDot, splitDots, splitDotsAux, jc0, jc1,
    (show afterFirstSub "schemaless_list[\"x\"]" "schemaless_list" = some "[\"x\"]" from by decide),
    (show afterFirstSub "schemaless_list[\"y\",\"z\"]" "schemaless_list" = some "[\"y\",\"z\"]" from by decide),
    (show parseStringArray "[\"x\"]" = ["x"] from by decide),
    (show parseStringArray "[\"y\",\"z\"]" = ["y", "z"] from by decide),
    (show hasSub "schemaless_list[\"x\"]" "schemaless_list[" = true from by decide),
    (show hasSub "schemaless_list[\"y\",\"z\"]" "schemaless_list[" = true from by decide),
    (show hasSub "schemaless_list[\"x\"]" "schemaless_list" = true from by decide),
    (show hasSub "schemaless_list[\"y\",\"z\"]" "schemaless_list" = true from by decide),
    (show hasSub "x" "schemaless_list" = false from by decide),
    (show hasSub "\x7b\"a\":\"schemaless_list[\\\"x\\\"]\",\"b\":\"schemaless_list[\\\"y\\\",\\\"z\\\"]\"\x7d" "\"a\":\"schemaless_list[" = true from by decide),
    (show hasSub "\x7b\"a\":\"x\",\"b\":\"schemaless_list[\\\"y\\\",\\\"z\\\"]\"\x7d" "\"b\":\"schemaless_list[" = true from by decide),
    (show hasSub "p" "." = false from by decide)]

/-- Witness for the C8 theorem: the padding facts at concrete inputs (a
one-item list fed a two-item payload). -/
theorem list_alignment_pads_with_first_item_witness :
    (hMLIFold ["u", "v"] [Json.null] (Json.bool true) "k" 0 false).1.length =
      max [Json.null].length (0 + (["u", "v"] : List String).length) ∧
    ((hMLIFold ["u"] ([] : List Json) Json.null "k" (0 : Nat) false).1.getD 0 .null =
        Json.null ∨
      (hMLIFold ["u"] ([] : List Json) Json.null "k" (0 : Nat) false).1.getD 0 .null =
        .obj (setNestedMap (objFieldsD Json.null) "k" (.str "u")).1) := by
  constructor
  · exact list_alignment_pads_with_first_item.1 ["u", "v"] [Json.null]
      (Json.bool true) "k" 0 false (by decide)
  · exact list_alignment_pads_with_first_item.2.1 "u" [] [] Json.null "k" false

/-! ### The inference/application round trip (C1) -/

/-- Counterexample to claim C1 as stated: for a source whose matching value
sits inside a list, Reverse Inference emits the path `list.#0`, and Forward
Application resolves that path to the sentinel-tagged marshalled list
`schemaless_list["hello"]` — not the sample's value `"hello"`. -/
theorem inferred_list_template_breaks_roundtrip :
    reverseTranslate (fun _ => none) 1 [("list", Json.arr [Json.str "hello"])]
        [("out", Json.str "hello")] = [("out", "list.#0")] ∧
    runJsonTranslation 1 [("list", Json.arr [Json.str "hello"])]
        [("out", Json.str "list.#0")] false =
      [("out", Json.str "schemaless_list[\"hello\"]")] ∧
    ("schemaless_list[\"hello\"]" : String) ≠ "hello" := by
  refine ⟨?_, ?_, by decide⟩
  · simp [reverseTranslate, rtInit, rtLoop, rtListLoop, rtAdjustValue, gateJson,
      trimSpace, findMatchingString, strMapSet]
    decide
  · have hjc : jsonCompact (Json.arr [Json.str "hello"]) = "[\"hello\"]" := by
      simp only [jsonCompact, jsonCompactItems]
      decide
    have hrf : recurseFindKey [("list", Json.arr [Json.str "hello"])]
        ["list", "#0"] 0 = some "schemaless_list[\"hello\"]" := by
      simp [recurseFindKey, rfkItems, startsHash, hjc]
      decide
    simp [runJsonTranslation, runJTAux, Json.lookup, Json.mapSet, recurseFindKeyD,
      hrf, (show splitDots "list.#0" = ["list", "#0"] from by decide),
      (show stripQuotes (replaceAll "list.#0" "[]" ".#") = "list.#0" from by
        simp [stripQuotes, replaceAll, replaceAllL, List.isPrefixOf]),
      (show hasSub "list.#0" "." = true from by decide),
      (show hasSub "list.#0" "$" = false from by decide)]

theorem splitDotsAux_ne_nil : ∀ (l : List Char), splitDotsAux l ≠ []
  | [] => by simp [splitDotsAux]
  | c :: cs => by
      simp only [splitDotsAux]
      split <;> simp

theorem splitDots_ne_nil (s : String) : splitDots s ≠ [] := by
  unfold splitDots
  intro h
  exact splitDotsAux_ne_nil s.data (by simpa using h)

theorem splitDotsAux_no_dot : ∀ (l : List Char), '.' ∉ l → splitDotsAux l = [l]
  | [] => fun _ => rfl
  | c :: cs => fun h => by
      have hc : ¬ (c = '.') := fun hq => h (by simp [hq])
      have hcs : '.' ∉ cs := fun hq => h (by simp [hq])
      simp only [splitDotsAux, splitDotsAux_no_dot cs hcs, hc, if_false]
      rfl

theorem splitDots_single (s : String) (h : '.' ∉ s.data) : splitDots s = [s] := by
  unfold splitDots
  rw [splitDotsAux_no_dot s.data h]
  rfl

theorem splitDotsAux_append : ∀ (k : List Char), '.' ∉ k →
    ∀ (p : List Char), splitDotsAux (k ++ '.' :: p) = k :: splitDotsAux p
  | [], _ => fun p => by simp [splitDotsAux]
  | c :: ck, h => fun p => by
      have hc : ¬ (c = '.') := fun hq => h (by simp [hq])
      have hck : '.' ∉ ck := fun hq => h (by simp [hq])
      simp only [List.cons_append, List.append_eq, splitDotsAux,
        splitDotsAux_append ck hck p, hc, if_false]
      rfl

theorem splitDots_append (k p : String) (h : '.' ∉ k.data) :
    splitDots (k ++ "." ++ p) = k :: splitDots p := by
  unfold splitDots
  have hd : (k ++ "." ++ p).data = k.data ++ '.' :: p.data := by
    simp [String.data_append]
  rw [hd, splitDotsAux_append k.data h p.data]
  rfl

theorem hasSubL_singleton : ∀ (l : List Char) (c : Char),
    hasSubL [c] l = l.contains c
  | [], c => by simp [hasSubL, List.isEmpty]
  | d :: ds, c => by
      simp only [hasSubL, List.isPrefixOf, List.contains_cons, hasSubL_singleton ds c]
      by_cases h : c = d
      · subst h
        simp
      · have h2 : ¬ (d = c) := fun hq => h hq.symm
        simp [h, h2]

theorem hasSub_char (s : String) (c : Char) (hc : (String.mk [c]).data = [c]) :
    hasSub s (String.mk [c]) = s.data.contains c := by
  rw [hasSub, hc, hasSubL_singleton]

theorem lookup_mem : ∀ (fs : List (String × Json)) (k : String) (v : Json),
    Json.lookup k fs = some v → (k, v) ∈ fs
  | [], k, v => by simp [Json.lookup]
  | (k1, v1) :: rest, k, v => by
      rw [Json.lookup]
      by_cases h : k1 = k
      · rw [if_pos h]
        intro hv
        cases hv
        simp [h]
      · rw [if_neg h]
        intro hv
        exact List.mem_cons_of_mem _ (lookup_mem rest k v hv)

theorem lookup_of_mem_nodup : ∀ (fs : List (String × Json)) (k : String) (v : Json),
    (k, v) ∈ fs → (fs.map Prod.fst).Nodup → Json.lookup k fs = some v
  | [], k, v => by simp
  | (k1, v1) :: rest, k, v => fun hm hnd => by
      rw [Json.lookup]
      rcases List.mem_cons.1 hm with h | h
      · cases h
        rw [if_pos rfl]
      · have hnd' : (∀ x : Json, (k1, x) ∉ rest) ∧ (rest.map Prod.fst).Nodup := by
          simpa using hnd
        have hk : k1 ≠ k := by
          intro hq
          subst hq
          exact hnd'.1 v h
        rw [if_neg hk]
        exact lookup_of_mem_nodup rest k v h hnd'.2

theorem srcFields_entry : ∀ (fs : List (String × Json)) (e : String × Json),
    e ∈ fs → srcFieldsOK fs = true → cleanKey e.1 = true ∧ srcValOK e.2 = true
  | [], e => by simp
  | (k1, v1) :: rest, e => fun hm hok => by
      rw [srcFieldsOK] at hok
      simp only [Bool.and_eq_true] at hok
      rcases List.mem_cons.1 hm with h | h
      · subst h
        exact ⟨hok.1.1.1, hok.1.2⟩
      · exact srcFields_entry rest e h hok.2

theorem srcFields_lookup : ∀ (fs : List (String × Json)) (k : String) (v : Json),
    (k, v) ∈ fs → srcFieldsOK fs = true → Json.lookup k fs = some v
  | [], k, v => by simp
  | (k1, v1) :: rest, k, v => fun hm hok => by
      rw [srcFieldsOK] at hok
      simp only [Bool.and_eq_true] at hok
      rw [Json.lookup]
      rcases List.mem_cons.1 hm with h | h
      · cases h
        rw [if_pos rfl]
      · have hnotin : k1 ∉ rest.map Prod.fst := by simpa using hok.1.1.2
        have hk : k1 ≠ k := by
          intro hq
          subst hq
          exact hnotin (List.mem_map.2 ⟨(k1, v), h, rfl⟩)
        rw [if_neg hk]
        exact srcFields_lookup rest k v h hok.2

theorem strLookup_mem : ∀ (m : List (String × String)) (k p : String),
    strLookup k m = some p → (k, p) ∈ m
  | [], k, p => by simp [strLookup]
  | (k1, p1) :: rest, k, p => by
      rw [strLookup]
      by_cases h : k1 = k
      · rw [if_pos h]
        intro hv
        cases hv
        simp [h]
      · rw [if_neg h]
        intro hv
        exact List.mem_cons_of_mem _ (strLookup_mem rest k p hv)

theorem findMatchingString_found : ∀ (tgt : List (String × Json)) (v : String),
    findMatchingString v tgt ≠ "" → (findMatchingString v tgt, Json.str v) ∈ tgt := by
  intro tgt
  induction tgt with
  | nil => intro v h; simp [findMatchingString] at h
  | cons e rest ih =>
      obtain ⟨k1, v1⟩ := e
      intro v h
      cases v1 with
      | str s =>
          rw [findMatchingString] at h ⊢
          by_cases hs : s = v
          · rw [if_pos hs] at h ⊢
            simp [hs]
          · rw [if_neg hs] at h ⊢
            exact List.mem_cons_of_mem _ (ih v h)
      | null =>
          rw [findMatchingString] at h ⊢
          exact List.mem_cons_of_mem _ (ih v h)
      | bool b =>
          rw [findMatchingString] at h ⊢
          exact List.mem_cons_of_mem _ (ih v h)
      | num n =>
          rw [findMatchingString] at h ⊢
          exact List.mem_cons_of_mem _ (ih v h)
      | arr xs =>
          rw [findMatchingString] at h ⊢
          exact List.mem_cons_of_mem _ (ih v h)
      | obj fsx =>
          rw [findMatchingString] at h ⊢
          exact List.mem_cons_of_mem _ (ih v h)

theorem strMapSet_mem : ∀ (m : List (String × String)) (k v : String)
    (e : String × String), e ∈ strMapSet m k v → e = (k, v) ∨ e ∈ m := by
  intro m k v e he
  unfold strMapSet at he
  by_cases hc : (m.map Prod.fst).contains k
  · rw [if_pos hc] at he
    obtain ⟨p, hp, hpe⟩ := List.mem_map.1 he
    by_cases h2 : p.1 = k
    · rw [if_pos h2] at hpe
      exact Or.inl hpe.symm
    · rw [if_neg h2] at hpe
      exact Or.inr (hpe ▸ hp)
  · rw [if_neg hc] at he
    rcases List.mem_append.1 he with h | h
    · exact Or.inr h
    · exact Or.inl (by simpa using h)

theorem rtInit_mem (tgt : List (String × Json)) (e : String × String)
    (h : e ∈ rtInit tgt) : e.2 = "" := by
  unfold rtInit at h
  obtain ⟨p, _, hpe⟩ := List.mem_map.1 h
  rw [← hpe]

theorem contains_false_not_mem {l : List Char} {c : Char}
    (h : l.contains c = false) : c ∉ l := by
  simpa using h

theorem not_mem_contains_false {l : List Char} {c : Char}
    (h : c ∉ l) : l.contains c = false := by
  simpa using h

theorem cleanKey_parts {k : String} (h : cleanKey k = true) :
    k.data ≠ [] ∧ '.' ∉ k.data ∧ '$' ∉ k.data ∧ '[' ∉ k.data ∧ '"' ∉ k.data := by
  unfold cleanKey at h
  simp only [Bool.and_eq_true, Bool.not_eq_eq_eq_not, Bool.not_true] at h
  refine ⟨?_, contains_false_not_mem h.1.1.1.2, contains_false_not_mem h.1.1.2,
    contains_false_not_mem h.1.2, contains_false_not_mem h.2⟩
  have := h.1.1.1.1
  simpa [List.isEmpty_iff] using this

theorem pathOK_parts {p : String} (h : pathOK p = true) :
    p.data ≠ [] ∧ '$' ∉ p.data ∧ '[' ∉ p.data ∧ '"' ∉ p.data := by
  unfold pathOK at h
  simp only [Bool.and_eq_true, Bool.not_eq_eq_eq_not, Bool.not_true] at h
  refine ⟨?_, contains_false_not_mem h.1.1.2, contains_false_not_mem h.1.2,
    contains_false_not_mem h.2⟩
  have := h.1.1.1
  simpa [List.isEmpty_iff] using this

theorem pathOK_of_parts {p : String} (h1 : p.data ≠ []) (h2 : '$' ∉ p.data)
    (h3 : '[' ∉ p.data) (h4 : '"' ∉ p.data) : pathOK p = true := by
  unfold pathOK
  simp only [Bool.and_eq_true, Bool.not_eq_eq_eq_not, Bool.not_true]
  exact ⟨⟨⟨by simpa [List.isEmpty_iff] using h1, not_mem_contains_false h2⟩,
    not_mem_contains_false h3⟩, not_mem_contains_false h4⟩

theorem cleanKey_pathOK {k : String} (h : cleanKey k = true) : pathOK k = true := by
  obtain ⟨h1, _, h3, h4, h5⟩ := cleanKey_parts h
  exact pathOK_of_parts h1 h3 h4 h5

theorem pathOK_append {k p : String} (hk : cleanKey k = true)
    (hp : pathOK p = true) : pathOK (k ++ "." ++ p) = true := by
  obtain ⟨k1, _, k3, k4, k5⟩ := cleanKey_parts hk
  obtain ⟨p1, p3, p4, p5⟩ := pathOK_parts hp
  have hd : (k ++ "." ++ p).data = k.data ++ '.' :: p.data := by
    simp [String.data_append]
  refine pathOK_of_parts (by simp [hd]) ?_ ?_ ?_ <;>
    · rw [hd]
      simp only [List.mem_append, List.mem_cons]
      rintro (h | h | h)
      · first
        | exact k3 h
        | exact k4 h
        | exact k5 h
      · simp at h
      · first
        | exact p3 h
        | exact p4 h
        | exact p5 h

theorem rtAdjust_str (decode : String → Option (List (String × Json)))
    (value : Json) (val : String) (hok : srcValOK value = true)
    (h : rtAdjustValue decode value = .str val) : value = .str val := by
  cases value with
  | str s =>
      rw [srcValOK] at hok
      rw [rtAdjustValue] at h
      simp only [Bool.not_eq_eq_eq_not, Bool.not_true] at hok
      rw [hok] at h
      simpa using h
  | null => simp [rtAdjustValue] at h
  | bool b => simp [rtAdjustValue] at h
  | num n => simp [rtAdjustValue] at h
  | arr xs => simp [rtAdjustValue] at h
  | obj fs => simp [rtAdjustValue] at h

theorem rtAdjust_obj (decode : String → Option (List (String × Json)))
    (value : Json) (val : List (String × Json)) (hok : srcValOK value = true)
    (h : rtAdjustValue decode value = .obj val) : value = .obj val := by
  cases value with
  | obj fs =>
      simp only [rtAdjustValue] at h
      exact h
  | str s =>
      rw [srcValOK] at hok
      rw [rtAdjustValue] at h
      simp only [Bool.not_eq_eq_eq_not, Bool.not_true] at hok
      rw [hok] at h
      simp at h
  | null => simp [rtAdjustValue] at h
  | bool b => simp [rtAdjustValue] at h
  | num n => simp [rtAdjustValue] at h
  | arr xs => simp [rtAdjustValue] at h

theorem rtAdjust_arr (decode : String → Option (List (String × Json)))
    (value : Json) (val : List Json) (hok : srcValOK value = true)
    (h : rtAdjustValue decode value = .arr val) : False := by
  cases value with
  | arr xs =>
      rw [srcValOK] at hok
      simp at hok
  | str s =>
      rw [srcValOK] at hok
      rw [rtAdjustValue] at h
      simp only [Bool.not_eq_eq_eq_not, Bool.not_true] at hok
      rw [hok] at h
      simp at h
  | null => simp [rtAdjustValue] at h
  | bool b => simp [rtAdjustValue] at h
  | num n => simp [rtAdjustValue] at h
  | obj fs => simp [rtAdjustValue] at h

theorem rtMerge_sound (key : String) (fs sub tgt : List (String × Json))
    (hk : cleanKey key = true) (hlk : Json.lookup key fs = some (.obj sub)) :
    ∀ (out nm : List (String × String)),
      (∀ e ∈ nm, soundB fs tgt e) →
      (∀ e ∈ out, soundB sub tgt e) →
      ∀ e ∈ rtMerge key nm out, soundB fs tgt e := by
  intro out
  induction out with
  | nil =>
      intro nm hnm _ e he
      rw [rtMerge] at he
      exact hnm e he
  | cons x rest ih =>
      obtain ⟨k, v⟩ := x
      intro nm hnm hout e he
      rw [rtMerge] at he
      by_cases hv : v = ""
      · rw [if_pos hv] at he
        exact ih nm hnm (fun e' he' => hout e' (by simp [he'])) e he
      · rw [if_neg hv] at he
        refine ih _ ?_ (fun e' he' => hout e' (by simp [he'])) e he
        intro e' he'
        rcases strMapSet_mem nm k (key ++ "." ++ v) e' he' with rfl | h
        · rcases hout (k, v) (by simp) with h0 | ⟨hpok, w, hw1, hw2⟩
          · exact absurd h0 hv
          · right
            refine ⟨pathOK_append hk hpok, w, hw1, ?_⟩
            show specResolve fs (splitDots (key ++ "." ++ v)) = some (.str w)
            rw [splitDots_append key v (cleanKey_parts hk).2.1]
            cases hsv : splitDots v with
            | nil => exact absurd hsv (splitDots_ne_nil v)
            | cons r rs =>
                rw [specResolve, hlk]
                rw [hsv] at hw2
                exact hw2
        · exact hnm e' h

theorem rtLoop_sound (decode : String → Option (List (String × Json)))
    (tgt : List (String × Json)) (hnd : (tgt.map Prod.fst).Nodup) :
    ∀ (fuel : Nat) (rem fs : List (String × Json)) (nm : List (String × String)),
      (∀ e ∈ rem, e ∈ fs) → srcFieldsOK fs = true →
      (∀ e ∈ nm, soundB fs tgt e) →
      ∀ e ∈ rtLoop decode fuel rem tgt nm, soundB fs tgt e
  | fuel, [], fs, nm => fun _ _ hnm e he => by
      rw [rtLoop] at he
      exact hnm e he
  | 0, (key, value) :: rest, fs, nm => fun hsub hok hnm e he => by
      have hrest : ∀ e ∈ rest, e ∈ fs := fun e' he' => hsub e' (by simp [he'])
      have hentry := srcFields_entry fs (key, value) (hsub _ (by simp)) hok
      rw [rtLoop] at he
      revert he
      cases hv1 : rtAdjustValue decode value with
      | str val =>
          intro he
          by_cases hm : findMatchingString val tgt = ""
          · simp only [hm, if_pos] at he
            exact rtLoop_sound decode tgt hnd 0 rest fs nm hrest hok hnm e he
          · simp only [hm, if_neg, if_false] at he
            refine rtLoop_sound decode tgt hnd 0 rest fs _ hrest hok ?_ e he
            intro e' he'
            rcases strMapSet_mem nm _ key e' he' with rfl | h
            · right
              have hval : value = .str val := rtAdjust_str decode value val hentry.2 hv1
              refine ⟨cleanKey_pathOK hentry.1, val, ?_, ?_⟩
              · exact lookup_of_mem_nodup tgt _ _ (findMatchingString_found tgt val hm) hnd
              · show specResolve fs (splitDots key) = some (.str val)
                rw [splitDots_single key (cleanKey_parts hentry.1).2.1, specResolve]
                rw [← hval]
                exact srcFields_lookup fs key value (hsub _ (by simp)) hok
            · exact hnm e' h
      | obj val =>
          intro he
          exact rtLoop_sound decode tgt hnd 0 rest fs nm hrest hok hnm e he
      | arr val =>
          intro he
          exact absurd hv1 (fun h => rtAdjust_arr decode value val hentry.2 h)
      | null =>
          intro he
          exact rtLoop_sound decode tgt hnd 0 rest fs nm hrest hok hnm e he
      | bool b =>
          intro he
          exact rtLoop_sound decode tgt hnd 0 rest fs nm hrest hok hnm e he
      | num n =>
          intro he
          exact rtLoop_sound decode tgt hnd 0 rest fs nm hrest hok hnm e he
  | fuel' + 1, (key, value) :: rest, fs, nm => fun hsub hok hnm e he => by
      have hrest : ∀ e ∈ rest, e ∈ fs := fun e' he' => hsub e' (by simp [he'])
      have hentry := srcFields_entry fs (key, value) (hsub _ (by simp)) hok
      rw [rtLoop] at he
      revert he
      cases hv1 : rtAdjustValue decode value with
      | str val =>
          intro he
          by_cases hm : findMatchingString val tgt = ""
          · simp only [hm, if_pos] at he
            exact rtLoop_sound decode tgt hnd (fuel' + 1) rest fs nm hrest hok hnm e he
          · simp only [hm, if_neg, if_false] at he
            refine rtLoop_sound decode tgt hnd (fuel' + 1) rest fs _ hrest hok ?_ e he
            intro e' he'
            rcases strMapSet_mem nm _ key e' he' with rfl | h
            · right
              have hval : value = .str val := rtAdjust_str decode value val hentry.2 hv1
              refine ⟨cleanKey_pathOK hentry.1, val, ?_, ?_⟩
              · exact lookup_of_mem_nodup tgt _ _ (findMatchingString_found tgt val hm) hnd
              · show specResolve fs (splitDots key) = some (.str val)
                rw [splitDots_single key (cleanKey_parts hentry.1).2.1, specResolve]
                rw [← hval]
                exact srcFields_lookup fs key value (hsub _ (by simp)) hok
            · exact hnm e' h
      | obj val =>
          intro he
          have hval : value = .obj val := rtAdjust_obj decode value val hentry.2 hv1
          have hvok : srcFieldsOK val = true := by
            have := hentry.2
            rw [hval, srcValOK] at this
            exact this
          have hchild : ∀ e ∈ rtLoop decode fuel' val tgt (rtInit tgt),
              soundB val tgt e := by
            refine rtLoop_sound decode tgt hnd fuel' val val (rtInit tgt)
              (fun e' he' => he') hvok ?_
            intro e' he'
            exact Or.inl (rtInit_mem tgt e' he')
          refine rtLoop_sound decode tgt hnd (fuel' + 1) rest fs _ hrest hok ?_ e he
          refine rtMerge_sound key fs val tgt hentry.1 ?_ _ nm hnm hchild
          rw [← hval]
          exact srcFields_lookup fs key value (hsub _ (by simp)) hok
      | arr val =>
          intro he
          exact absurd hv1 (fun h => rtAdjust_arr decode value val hentry.2 h)
      | null =>
          intro he
          exact rtLoop_sound decode tgt hnd (fuel' + 1) rest fs nm hrest hok hnm e he
      | bool b =>
          intro he
          exact rtLoop_sound decode tgt hnd (fuel' + 1) rest fs nm hrest hok hnm e he
      | num n =>
          intro he
          exact rtLoop_sound decode tgt hnd (fuel' + 1) rest fs nm hrest hok hnm e he
  termination_by fuel rem fs nm => (fuel, sizeOf rem)

theorem string_mk_data (s : String) : String.mk s.data = s := rfl

theorem stripQuotes_id (s : String) (h : '"' ∉ s.data) : stripQuotes s = s := by
  unfold stripQuotes
  have hf : s.data.filter (· ≠ '"') = s.data := by
    rw [List.filter_eq_self]
    intro a ha
    by_cases hq : a = '"'
    · exact absurd (hq ▸ ha) h
    · simp [hq]
  rw [hf]

theorem replaceAllL_id (rep : List Char) :
    ∀ (l : List Char), '[' ∉ l → replaceAllL ['[', ']'] rep l = l
  | [], _ => by rw [replaceAllL]
  | c :: cs, h => by
      have hc : c ≠ '[' := fun hq => h (by simp [hq])
      have hcs : '[' ∉ cs := fun hq => h (by simp [hq])
      have hnp : ¬ ((['[', ']'] : List Char) ≠ [] ∧
          List.isPrefixOf ['[', ']'] (c :: cs) = true) := by
        intro hq
        have h2 := hq.2
        simp only [List.isPrefixOf, Bool.and_eq_true, beq_iff_eq] at h2
        exact hc h2.1.symm
      rw [replaceAllL, dif_neg hnp, replaceAllL_id rep cs hcs]

theorem replaceAll_id (s : String) (h : '[' ∉ s.data) :
    replaceAll s "[]" ".#" = s := by
  unfold replaceAll
  rw [show ("[]" : String).data = ['[', ']'] from rfl, replaceAllL_id _ s.data h]

theorem hasSub_dot (s : String) : hasSub s "." = s.data.contains '.' := by
  rw [hasSub, show ("." : String).data = ['.'] from rfl, hasSubL_singleton]

theorem hasSub_dollar (s : String) : hasSub s "$" = s.data.contains '$' := by
  rw [hasSub, show ("$" : String).data = ['$'] from rfl, hasSubL_singleton]

theorem srcFields_dotted_none : ∀ (fs : List (String × Json)) (q : String),
    srcFieldsOK fs = true → '.' ∈ q.data → Json.lookup q fs = none
  | [], q => fun _ _ => rfl
  | (k1, v1) :: rest, q => fun hok hdot => by
      rw [srcFieldsOK] at hok
      simp only [Bool.and_eq_true] at hok
      have hk1 : k1 ≠ q := by
        intro hq
        subst hq
        exact (cleanKey_parts hok.1.1.1).2.1 hdot
      rw [Json.lookup, if_neg hk1]
      exact srcFields_dotted_none rest q hok.2 hdot

theorem specResolve_head_lookup : ∀ (segs : List String)
    (src : List (String × Json)) (r : Json), specResolve src segs = some r →
    ∃ w, Json.lookup (segs.headD "") src = some w
  | [], src, r => by simp [specResolve]
  | [k], src, r => fun h => by
      rw [specResolve] at h
      exact ⟨r, h⟩
  | k :: k2 :: rest, src, r => fun h => by
      rw [specResolve] at h
      revert h
      cases hl : Json.lookup k src with
      | none => intro h; simp at h
      | some w =>
          intro h
          exact ⟨w, hl⟩

theorem specResolve_congr : ∀ (segs : List String)
    (src pi : List (String × Json)) (r : Json),
    (∀ w, Json.lookup (segs.headD "") src = some w →
      Json.lookup (segs.headD "") pi = some w) →
    specResolve src segs = some r → specResolve pi segs = some r
  | [], src, pi, r => by simp [specResolve]
  | [k], src, pi, r => fun hcong h => by
      rw [specResolve] at h ⊢
      exact hcong r h
  | k :: k2 :: rest, src, pi, r => fun hcong h => by
      rw [specResolve] at h ⊢
      revert h
      cases hl : Json.lookup k src with
      | none => intro h; simp at h
      | some w =>
          intro h
          have hpi : Json.lookup k pi = some w := hcong w hl
          rw [hpi]
          exact h

theorem rfk_of_spec : ∀ (segs : List String) (fs : List (String × Json))
    (v : String) (depth : Nat), specResolve fs segs = some (.str v) →
    recurseFindKey fs segs depth = some v
  | [], fs, v, depth => by simp [specResolve]
  | [k], [], v, depth => by simp [specResolve, Json.lookup]
  | [k], (k1, v1) :: rest, v, depth => fun h => by
      rw [specResolve, Json.lookup] at h
      by_cases hk : k1 = k
      · rw [if_pos hk] at h
        have hv1 : v1 = .str v := by injection h
        subst hv1
        rw [recurseFindKey.eq_3, if_neg (by simp [hk]), if_pos (by simp)]
      · rw [if_neg hk] at h
        have hr := rfk_of_spec [k] rest v depth (by rw [specResolve]; exact h)
        have hne : k1 ≠ ([k].headD "") := by simpa using hk
        cases v1 with
        | null => rw [recurseFindKey.eq_2, if_pos hne]; exact hr
        | str s => rw [recurseFindKey.eq_3, if_pos hne]; exact hr
        | obj fs2 => rw [recurseFindKey.eq_4, if_pos hne]; exact hr
        | arr xs => rw [recurseFindKey.eq_5, if_pos hne]; exact hr
        | bool b => rw [recurseFindKey.eq_6, if_pos hne]; exact hr
        | num n => rw [recurseFindKey.eq_7, if_pos hne]; exact hr
  | k :: k2 :: rest, [], v, depth => by
      rw [specResolve, Json.lookup]
      simp
  | k :: k2 :: rest, (k1, v1) :: fsrest, v, depth => fun h => by
      rw [specResolve, Json.lookup] at h
      by_cases hk : k1 = k
      · rw [if_pos hk] at h
        cases v1 with
        | obj sub =>
            have hrec := rfk_of_spec (k2 :: rest) sub v (depth + 1) (by exact h)
            rw [recurseFindKey.eq_4,
              if_neg (show ¬ k1 ≠ ((k :: k2 :: rest).headD "") by simp [hk]),
              if_neg (by simp)]
            simp only [List.tail_cons]
            rw [hrec]
        | null => simp at h
        | str s => simp at h
        | bool b => simp at h
        | num n => simp at h
        | arr xs => simp at h
      · rw [if_neg hk] at h
        have hr := rfk_of_spec (k :: k2 :: rest) fsrest v depth
          (by rw [specResolve]; exact h)
        have hne : k1 ≠ ((k :: k2 :: rest).headD "") := by simpa using hk
        cases v1 with
        | null => rw [recurseFindKey.eq_2, if_pos hne]; exact hr
        | str s => rw [recurseFindKey.eq_3, if_pos hne]; exact hr
        | obj fs2 => rw [recurseFindKey.eq_4, if_pos hne]; exact hr
        | arr xs => rw [recurseFindKey.eq_5, if_pos hne]; exact hr
        | bool b => rw [recurseFindKey.eq_6, if_pos hne]; exact hr
        | num n => rw [recurseFindKey.eq_7, if_pos hne]; exact hr
  termination_by segs fs _ _ => (segs.length, sizeOf fs)


theorem lookup_map_str : ∀ (m : List (String × String)) (k p : String),
    strLookup k m = some p →
    Json.lookup k (m.map (fun e => (e.1, Json.str e.2))) = some (.str p)
  | [], k, p => by simp [strLookup]
  | (k1, p1) :: rest, k, p => fun h => by
      rw [strLookup] at h
      rw [List.map_cons, Json.lookup]
      by_cases hk : k1 = k
      · rw [if_pos hk] at h
        injection h with h
        rw [if_pos hk, h]
      · rw [if_neg hk] at h
        rw [if_neg hk]
        exact lookup_map_str rest k p h

theorem runJTAux_rt (src tgt : List (String × Json))
    (htK : ∀ tk ∈ tgt.map Prod.fst, '.' ∉ tk.data ∧ Json.lookup tk src = none) :
    ∀ (tpl : List (String × Json)) (pi acc pi0 : List (String × Json))
      (hFuel : Nat) (k p v : String),
      (∀ e ∈ tpl, ∃ q : String, e.2 = Json.str q ∧ e.1 ∈ tgt.map Prod.fst) →
      (tpl.map Prod.fst).Nodup →
      (∀ q w, Json.lookup q src = some w → Json.lookup q pi = some w) →
      (∀ q : String, '.' ∈ q.data → Json.lookup q pi = none) →
      Json.lookup k tpl = some (.str p) →
      pathOK p = true →
      specResolve src (splitDots p) = some (.str v) →
      Json.lookup k (runJTAux pi0 hFuel tpl pi acc) = some (.str v) := by
  intro tpl
  induction tpl with
  | nil =>
      intro pi acc pi0 hFuel k p v _ _ _ _ hlk _ _
      simp [Json.lookup] at hlk
  | cons hd rest ih =>
      obtain ⟨tk, tv⟩ := hd
      intro pi acc pi0 hFuel k p v hent hnodup hpi1 hpi2 hlk hp hspec
      obtain ⟨q, hq, htk⟩ := hent (tk, tv) (by simp)
      have hq' : tv = Json.str q := hq
      subst hq'
      have hnodup' : (rest.map Prod.fst).Nodup ∧ tk ∉ rest.map Prod.fst := by
        rw [List.map_cons, List.nodup_cons] at hnodup
        exact ⟨hnodup.2, hnodup.1⟩
      rw [Json.lookup] at hlk
      by_cases hke : tk = k
      · rw [if_pos hke] at hlk
        have hpq : q = p := by injection hlk with h2; injection h2
        subst hpq
        subst hke
        have hknotin : tk ∉ rest.map Prod.fst := hnodup'.2
        by_cases hd : '.' ∈ q.data
        · have hlp : Json.lookup q pi = none := hpi2 q hd
          have hdot : hasSub q "." = true := by
            rw [hasSub_dot]
            simpa using hd
          have hparts := pathOK_parts hp
          have hdol : hasSub q "$" = false := by
            rw [hasSub_dollar]
            exact not_mem_contains_false hparts.2.1
          have hkey2 : stripQuotes (replaceAll q "[]" ".#") = q := by
            rw [replaceAll_id q hparts.2.2.1, stripQuotes_id q hparts.2.2.2]
          have hspec_pi : specResolve pi (splitDots q) = some (.str v) :=
            specResolve_congr _ src pi _ (fun w hw => hpi1 _ w hw) hspec
          have hrfk : recurseFindKey pi (splitDots q) 0 = some v :=
            rfk_of_spec _ pi v 0 hspec_pi
          simp only [runJTAux.eq_2, hlp, hdot, hdol, eq_self_iff_true, if_true,
            Bool.false_eq_true, if_false, hkey2, recurseFindKeyD, hrfk, Option.getD]
          rw [runJTAux_lookup_not_mem pi0 hFuel rest pi _ tk hknotin]
          exact lookup_mapSet_self acc tk (Json.str v)
        · have hsingle : splitDots q = [q] := splitDots_single q hd
          rw [hsingle, specResolve] at hspec
          have hlp : Json.lookup q pi = some (.str v) := hpi1 q _ hspec
          rw [runJTAux.eq_2, hlp]
          rw [runJTAux_lookup_not_mem pi0 hFuel rest _ _ tk hknotin]
          exact lookup_mapSet_self acc tk (Json.str v)
      · rw [if_neg hke] at hlk
        have hent' : ∀ e ∈ rest, ∃ q : String, e.2 = Json.str q ∧
            e.1 ∈ tgt.map Prod.fst := fun e he => hent e (by simp [he])
        have htk' := htK tk htk
        rw [runJTAux.eq_2]
        cases hlq : Json.lookup q pi with
        | some w =>
            refine ih (Json.mapSet pi tk w) (Json.mapSet acc tk w) pi0 hFuel k p v
              hent' hnodup'.1 ?_ ?_ hlk hp hspec
            · intro q' w' hw'
              have hne : q' ≠ tk := by
                intro hq'
                subst hq'
                rw [htk'.2] at hw'
                exact Option.noConfusion hw'
              rw [lookup_mapSet_ne pi tk q' w hne]
              exact hpi1 q' w' hw'
            · intro q' hdq'
              have hne : q' ≠ tk := by
                intro hq'
                subst hq'
                exact htk'.1 hdq'
              rw [lookup_mapSet_ne pi tk q' w hne]
              exact hpi2 q' hdq'
        | none =>
            exact ih pi _ pi0 hFuel k p v hent' hnodup'.1 hpi1 hpi2 hlk hp hspec

/-- Claim C1 (amended): the round trip holds on list-free sources — for a
source tree of objects and scalars with clean keys (non-empty, free of
`.`, `$`, `[`, `"`), no duplicate keys, no embedded-JSON string leaves, and
target keys that are dot-free, duplicate-free and disjoint from the source's
top-level keys, every key the inference binds to a non-empty path is
reproduced exactly by applying the inferred template: the forward output
binds it to the very string value the sample holds. -/
theorem reverse_inference_forward_roundtrip :
    ∀ (decode : String → Option (List (String × Json))) (rfuel hFuel : Nat)
      (src tgt : List (String × Json)),
      srcFieldsOK src = true →
      (tgt.map Prod.fst).Nodup →
      (∀ tk ∈ tgt.map Prod.fst, '.' ∉ tk.data ∧ Json.lookup tk src = none) →
      ∀ k p, strLookup k (reverseTranslate decode rfuel src tgt) = some p →
        p ≠ "" →
        ∃ v, Json.lookup k tgt = some (.str v) ∧
          Json.lookup k (runJsonTranslation hFuel src
            ((reverseTranslate decode rfuel src tgt).map
              (fun e => (e.1, Json.str e.2))) false) = some (.str v) := by
  intro decode rfuel hFuel src tgt hsrc hnd htK k p hlk hp0
  have hmem : (k, p) ∈ reverseTranslate decode rfuel src tgt :=
    strLookup_mem _ k p hlk
  have hsound : soundB src tgt (k, p) := by
    unfold reverseTranslate at hmem
    exact rtLoop_sound decode tgt hnd rfuel src src (rtInit tgt)
      (fun e he => he) hsrc (fun e he => Or.inl (rtInit_mem tgt e he)) (k, p) hmem
  rcases hsound with h0 | ⟨hp, v, hv1, hv2⟩
  · exact absurd h0 hp0
  refine ⟨v, hv1, ?_⟩
  have hkeys : (reverseTranslate decode rfuel src tgt).map Prod.fst =
      tgt.map Prod.fst := by
    unfold reverseTranslate
    exact rtLoop_keys decode rfuel src tgt (rtInit tgt) (by simp [rtInit])
  have hent : ∀ e ∈ (reverseTranslate decode rfuel src tgt).map
      (fun e => (e.1, Json.str e.2)), ∃ q : String, e.2 = Json.str q ∧
      e.1 ∈ tgt.map Prod.fst := by
    intro e he
    obtain ⟨e0, he0, rfl⟩ := List.mem_map.1 he
    exact ⟨e0.2, rfl, by rw [← hkeys]; exact List.mem_map.2 ⟨e0, he0, rfl⟩⟩
  have hnodup2 : (((reverseTranslate decode rfuel src tgt).map
      (fun e => (e.1, Json.str e.2))).map Prod.fst).Nodup := by
    have h1 : ((reverseTranslate decode rfuel src tgt).map
        (fun e => (e.1, Json.str e.2))).map Prod.fst =
        (reverseTranslate decode rfuel src tgt).map Prod.fst := by
      rw [List.map_map]
      rfl
    rw [h1, hkeys]
    exact hnd
  have hlm : Json.lookup k ((reverseTranslate decode rfuel src tgt).map
      (fun e => (e.1, Json.str e.2))) = some (.str p) := lookup_map_str _ k p hlk
  unfold runJsonTranslation
  simp only [Bool.false_eq_true, if_false]
  exact runJTAux_rt src tgt htK _ src [] src hFuel k p v hent hnodup2
    (fun q w h => h) (fun q hq => srcFields_dotted_none src q hsrc hq) hlm hp hv2

/-- Witness for the amended C1 theorem: a two-level source and a two-key
sample; the inference yields `username ↦ a.b`, `t ↦ c`, and forward
application reproduces `"frikky"`. -/
theorem reverse_inference_forward_roundtrip_witness :
    ∃ v, Json.lookup "username"
        [("username", Json.str "frikky"), ("t", Json.str "top")] =
        some (.str v) ∧
      Json.lookup "username" (runJsonTranslation 1
        [("a", Json.obj [("b", Json.str "frikky")]), ("c", Json.str "top")]
        ((reverseTranslate (fun _ => none) 2
          [("a", Json.obj [("b", Json.str "frikky")]), ("c", Json.str "top")]
          [("username", Json.str "frikky"), ("t", Json.str "top")]).map
          (fun e => (e.1, Json.str e.2))) false) = some (.str v) := by
  have hrt : reverseTranslate (fun _ => none) 2
      [("a", Json.obj [("b", Json.str "frikky")]), ("c", Json.str "top")]
      [("username", Json.str "frikky"), ("t", Json.str "top")] =
      [("username", "a.b"), ("t", "c")] := by
    simp [reverseTranslate, rtInit, rtLoop, rtListLoop, rtAdjustValue, gateJson,
      trimSpace, findMatchingString, strMapSet, rtMerge]
  refine reverse_inference_forward_roundtrip (fun _ => none) 2 1
    [("a", Json.obj [("b", Json.str "frikky")]), ("c", Json.str "top")]
    [("username", Json.str "frikky"), ("t", Json.str "top")]
    ?_ (by decide) ?_ "username" "a.b" ?_ (by decide)
  · simp [srcFieldsOK, srcValOK, cleanKey, gateJson, trimSpace]
  · intro tk htk
    simp only [List.map_cons, List.map_nil, List.mem_cons, List.mem_singleton] at htk
    rcases htk with rfl | htk
    · exact ⟨by decide, by simp [Json.lookup]⟩
    · simp at htk
      subst htk
      exact ⟨by decide, by simp [Json.lookup]⟩
  · rw [hrt]
    simp [strLookup]

end Schemaless
